import Mathlib

/-!
Verification development for a small bytecode compiler and stack VM
(Rust sources: chunk.rs, value.rs, scanner.rs, compiler.rs, vm.rs).

Modelling conventions, used consistently below:
* Machine bytes (`u8`) are modelled as `Nat` with an explicit `% 256`
  at the single place where the source performs a narrowing cast
  (`Chunk.add_constant`'s `self.constants.len() as u8 - 1`).
* `f64` numbers are modelled by `Number`, an exact fraction type
  (integer numerator/denominator, no normalisation, so that every
  operation is kernel-computable): every operation the VM performs
  (`+ - * /`, negation, the number-ness checks) is mapped to the
  corresponding exact operation.  All statements proved here compare the
  VM's result with a reference evaluation over the *same* carrier, so
  they express the structural claims (operand order, precedence,
  constant-pool indexing) independently of floating-point rounding.
* Source text (`Vec<u8>`, read byte-wise through `as char`) is modelled
  as `List Char`; the inputs appearing in the claims are ASCII, where
  the byte-wise and character-wise readings coincide.
* A Rust `panic` (out-of-bounds `Vec` index, arithmetic underflow in a
  debug build) is modelled as an explicit `panic` outcome, distinct
  from the `Result::Err` values the source returns deliberately.
* Stdout printing carries no control flow except for the error strings
  that the claims quote; those are kept as values, other printing is
  dropped.  Format placeholders are substituted; the single quotes the
  source puts around interpolated fields are left out of the modelled
  error strings (no claim mentions them).
-/

/-! ## value.rs -/

/-- The model of the source's `Number = f64`: an exact fraction with the
field arithmetic of rationals, kept unnormalised so that all operations
reduce in the kernel.  Values produced from integer literals and integer
arithmetic always carry denominator 1, so structural equality on the
results proved below coincides with numeric equality. -/
structure Number where
  num : Int
  den : Int
deriving DecidableEq, Repr

namespace Number

/-- Embed an integer (literals, `f64::from(u8)`). -/
def ofInt (n : Int) : Number := ⟨n, 1⟩

def add (a b : Number) : Number := ⟨a.num * b.den + b.num * a.den, a.den * b.den⟩

def sub (a b : Number) : Number := ⟨a.num * b.den - b.num * a.den, a.den * b.den⟩

def mul (a b : Number) : Number := ⟨a.num * b.num, a.den * b.den⟩

def div (a b : Number) : Number := ⟨a.num * b.den, a.den * b.num⟩

def negN (a : Number) : Number := ⟨-a.num, a.den⟩

end Number

/-- `ValueType` (value.rs): discriminant of the tagged union. -/
inductive ValueType where
  | valBool
  | valNil
  | valNumber
deriving DecidableEq, Repr

/-- `Value` (value.rs): tagged union over nil, boolean, number.  The Rust
struct is a tag plus an untagged payload union; we fuse them into one sum. -/
inductive Value where
  | valBool (b : Bool)
  | valNil
  | valNumber (q : Number)
deriving DecidableEq, Repr

namespace Value

def fromBool (b : Bool) : Value := .valBool b

def fromNil : Value := .valNil

def fromNumber (q : Number) : Value := .valNumber q

def getType : Value → ValueType
  | .valBool _ => .valBool
  | .valNil => .valNil
  | .valNumber _ => .valNumber

def isBool (v : Value) : Bool := v.getType = ValueType.valBool

def isNil (v : Value) : Bool := v.getType = ValueType.valNil

def isNumber (v : Value) : Bool := v.getType = ValueType.valNumber

/-- `Value::as_number` reads the payload union as a number.  On a
non-number the source reads bytes that were never written as a number
(unspecified garbage); we return 0 there.  No modelled control flow and
no proved statement depends on that garbage value. -/
def asNumber : Value → Number
  | .valNumber q => q
  | _ => ⟨0, 1⟩

/-- `Value::as_bool`; same garbage caveat as `asNumber`. -/
def asBool : Value → Bool
  | .valBool b => b
  | _ => false

end Value

/-! ## chunk.rs -/

/-- `OpCode` (chunk.rs lines 6-14).  Exactly the seven declared variants,
with their `repr(u8)` discriminants given by `OpCode.toByte` below.
(vm.rs's dispatch additionally names `OpNil`, `OpTrue`, `OpFalse`,
`OpNot`, `OpGreater`, `OpLess`, `OpEqual`, which this enum does not
declare; see the C6 analysis.) -/
inductive OpCode where
  | opReturn
  | opConstant
  | opNegate
  | opAdd
  | opSubtract
  | opMultiply
  | opDivide
deriving DecidableEq, Repr

/-- The `repr(u8)` discriminant of each `OpCode` variant (`op as u8`). -/
def OpCode.toByte : OpCode → Nat
  | .opReturn => 0
  | .opConstant => 1
  | .opNegate => 2
  | .opAdd => 3
  | .opSubtract => 4
  | .opMultiply => 5
  | .opDivide => 6

/-- `byte_to_op` (chunk.rs lines 16-32).  The error string is the
`runtime_error`-wrapped message (quotes around the byte elided). -/
def byteToOp (byte : Nat) : Except String OpCode :=
  match byte with
  | 0 => .ok .opReturn
  | 1 => .ok .opConstant
  | 2 => .ok .opNegate
  | 3 => .ok .opAdd
  | 4 => .ok .opSubtract
  | 5 => .ok .opMultiply
  | 6 => .ok .opDivide
  | b =>
    .error ("[RUNTIME]: Invalid conversion to instruction from byte: "
      ++ toString b ++ "\nInstruction does not exist.")

/-- `Chunk` (chunk.rs lines 34-39): code bytes, constant pool,
per-byte line table. -/
structure Chunk where
  code : List Nat
  constants : List Value
  lines : List Int
deriving DecidableEq, Repr

namespace Chunk

/-- `Chunk::new`. -/
def new : Chunk := ⟨[], [], []⟩

/-- `Chunk::write_instruction` (push line, push `instruction as u8`). -/
def writeInstruction (c : Chunk) (instruction : OpCode) (line : Int) : Chunk :=
  { c with lines := c.lines ++ [line], code := c.code ++ [instruction.toByte] }

/-- `Chunk::write_byte`. -/
def writeByte (c : Chunk) (byte : Nat) (line : Int) : Chunk :=
  { c with lines := c.lines ++ [line], code := c.code ++ [byte] }

/-- `Chunk::add_constant`: push the value, then return
`self.constants.len() as u8 - 1`.  With the new length `n` this is the
release-build wrapped value `(n - 1) % 256 = (old length) % 256`; a debug
build instead panics on the `u8` underflow when `n % 256 = 0` (that is,
on the 256th constant).  We model the release behaviour and keep the
debug caveat in mind where it matters (claim C3). -/
def addConstant (c : Chunk) (constant : Value) : Chunk × Nat :=
  ({ c with constants := c.constants ++ [constant] }, c.constants.length % 256)

end Chunk

/-! ## Disassembler (chunk.rs lines 76-135).

`dissasemble_instruction` is executed by the VM before every
instruction because `DEBUG_TRACE_EXECUTION` is `true` (common.rs), and
its failure aborts the run, so it is control-flow relevant.  The
printing itself is dropped; the result is the next offset, a
disassemble error (returned as `Err(String)` in the source), or a panic
from one of its direct `Vec` indexings (`self.lines[offset]`,
`self.code[offset + 1]`, `self.constants[constant]`). -/

inductive DisResult where
  | ok (nextOffset : Nat)
  | err (msg : String)
  | panic
deriving DecidableEq, Repr

/-- `Chunk::dissasemble_instruction`.  The line-column logic only prints,
but it indexes `lines[offset]` (and `lines[offset - 1]` when
`offset > 0`), which panics when out of bounds. -/
def Chunk.dissasembleInstruction (c : Chunk) (offset : Nat) : DisResult :=
  -- `self.lines[offset]` / `self.lines[offset - 1]`: both indices are
  -- bounded by `offset < lines.length` (for `offset > 0` the comparison
  -- touches `offset` and `offset - 1`; for `offset = 0` the else-branch
  -- prints `lines[0]`).  Either way `offset < lines.length` is required.
  if offset < c.lines.length then
    match c.code.get? offset with
    | some byte =>
      match byteToOp byte with
      | .error e => .err e   -- `byte_to_op(*byte)?` propagates the error as-is
      | .ok instruction =>
        match instruction with
        | .opConstant =>
          -- `constant_instruction`: reads `code[offset + 1]` and
          -- `constants[constant]` by direct index (panic when absent).
          match c.code.get? (offset + 1) with
          | some constant =>
            match c.constants.get? constant with
            | some _ => .ok (offset + 2)
            | none => .panic
          | none => .panic
        | _ => .ok (offset + 1)
    | none =>
      .err ("[DISSASEMBLE]: Invalid instruction found at offset: "
        ++ toString offset ++ "\nOffset out of bounds.")
  else .panic

/-! ## scanner.rs -/

/-- `TokenType` (scanner.rs lines 4-54), in declaration order; the order
matters because the parser's rule table is indexed by the discriminant. -/
inductive TokenType where
  | leftParen
  | rightParen
  | leftBrace
  | rightBrace
  | comma
  | dot
  | minus
  | plus
  | semicolon
  | slash
  | star
  | bang
  | bangEqual
  | equal
  | equalEqual
  | greater
  | greaterEqual
  | less
  | lessEqual
  | identifier
  | string
  | number
  | kwAnd
  | kwClass
  | kwElse
  | kwFalse
  | kwFor
  | kwFun
  | kwIf
  | kwNil
  | kwOr
  | kwPrint
  | kwReturn
  | kwSuper
  | kwThis
  | kwTrue
  | kwVar
  | kwWhile
  | error
  | eof
deriving DecidableEq, Repr

/-- `get_keywords` (scanner.rs lines 56-75), as a lookup function. -/
def getKeyword (lx : List Char) : Option TokenType :=
  if lx = "and".toList then some .kwAnd
  else if lx = "class".toList then some .kwClass
  else if lx = "else".toList then some .kwElse
  else if lx = "false".toList then some .kwFalse
  else if lx = "for".toList then some .kwFor
  else if lx = "fun".toList then some .kwFun
  else if lx = "if".toList then some .kwIf
  else if lx = "nil".toList then some .kwNil
  else if lx = "or".toList then some .kwOr
  else if lx = "print".toList then some .kwPrint
  else if lx = "return".toList then some .kwReturn
  else if lx = "super".toList then some .kwSuper
  else if lx = "this".toList then some .kwThis
  else if lx = "true".toList then some .kwTrue
  else if lx = "var".toList then some .kwVar
  else if lx = "while".toList then some .kwWhile
  else none

/-- `Token` (scanner.rs lines 77-82). -/
structure Token where
  ttype : TokenType
  lexeme : List Char
  line : Int
deriving DecidableEq, Repr

/-- `Scanner` (scanner.rs lines 98-105); the keyword map is a constant
and is modelled by `getKeyword` instead of a field.  `cur` is the source
field `current`. -/
structure ScanState where
  start : Nat
  cur : Nat
  line : Int
  source : List Char
deriving DecidableEq, Repr

namespace ScanState

/-- `Scanner::new`. -/
def new (source : List Char) : ScanState := ⟨0, 0, 1, source⟩

/-- `Scanner::peek`. -/
def peekS (s : ScanState) : Option Char := s.source.get? s.cur

/-- `Scanner::is_at_end`: true at a NUL byte or past the buffer. -/
def isAtEnd (s : ScanState) : Bool :=
  match s.peekS with
  | some c => c == '\x00'
  | none => true

/-- `Scanner::peek_next`. -/
def peekNextS (s : ScanState) : Option Char :=
  if s.isAtEnd then some '\x00' else s.source.get? (s.cur + 1)

/-- `Scanner::advance`, cursor part (the returned char is `peekS`). -/
def advC (s : ScanState) : ScanState := { s with cur := s.cur + 1 }

/-- `Scanner::match_char`. -/
def matchCharS (s : ScanState) (expected : Char) : Bool × ScanState :=
  if s.isAtEnd then (false, s)
  else
    match s.peekS with
    | some c => if c = expected then (true, s.advC) else (false, s)
    | none => (false, s)

def isDigitC (c : Char) : Bool := '0' ≤ c && c ≤ '9'

def isAlphaC (c : Char) : Bool :=
  ('a' ≤ c && c ≤ 'z') || ('A' ≤ c && c ≤ 'Z') || c == '_'

/-- Line-comment loop inside `skip_whitespace`:
`while peek != '\n' && !at_end { advance }`. -/
def lineCommentLoop : Nat → ScanState → ScanState
  | 0, s => s
  | fuel + 1, s =>
    if s.peekS != some '\n' && !s.isAtEnd then lineCommentLoop fuel s.advC
    else s

/-- Block-comment loop inside `skip_whitespace`:
`while peek != '*' && peek_next != '/' && !at_end { advance }`.
(The condition is a conjunction of the two disequalities exactly as in
the source; the final `advance` after the loop is at the call site.) -/
def blockCommentLoop : Nat → ScanState → ScanState
  | 0, s => s
  | fuel + 1, s =>
    if s.peekS != some '*' && s.peekNextS != some '/' && !s.isAtEnd then
      blockCommentLoop fuel s.advC
    else s

/-- `Scanner::skip_whitespace` (scanner.rs lines 321-354), as a fueled
loop.  Every iteration that does not return advances the cursor, so the
fuel `source.length + 2` passed by `scanToken` is never exhausted. -/
def skipWsLoop : Nat → ScanState → ScanState
  | 0, s => s
  | fuel + 1, s =>
    match s.peekS with
    | some ' ' | some '\r' | some '\t' => skipWsLoop fuel s.advC
    | some '\n' => skipWsLoop fuel (advC { s with line := s.line + 1 })
    | some '/' =>
      match s.peekNextS with
      | some '/' =>
        skipWsLoop fuel (lineCommentLoop (s.source.length + 2) s)
      | some '*' =>
        skipWsLoop fuel (advC (blockCommentLoop (s.source.length + 2) s))
      | _ => s
    | _ => s

/-- Digit-consuming loop of `Scanner::number` (used twice). -/
def numLoop : Nat → ScanState → ScanState
  | 0, s => s
  | fuel + 1, s =>
    match s.peekS with
    | some c => if isDigitC c then numLoop fuel s.advC else s
    | none => s

/-- Identifier-consuming loop of `Scanner::identifier`. -/
def identLoop : Nat → ScanState → ScanState
  | 0, s => s
  | fuel + 1, s =>
    match s.peekS with
    | some c =>
      if !isAlphaC c && !isDigitC c then s else identLoop fuel s.advC
    | none => s

/-- String-body loop of `Scanner::string`. -/
def stringLoop : Nat → ScanState → ScanState
  | 0, s => s
  | fuel + 1, s =>
    if s.peekS != some '"' && !s.isAtEnd then
      let s := if s.peekS == some '\n' then { s with line := s.line + 1 } else s
      stringLoop fuel s.advC
    else s

end ScanState

/-- Rust `Vec::get(a..b)`: `Some` slice iff `a ≤ b ≤ len`. -/
def sliceL (l : List Char) (a b : Nat) : Option (List Char) :=
  if a ≤ b ∧ b ≤ l.length then some ((l.drop a).take (b - a)) else none

/-- `Scanner::error_token`. -/
def errorToken (s : ScanState) (msg : List Char) : Token := ⟨.error, msg, s.line⟩

/-- `Scanner::make_token`; the out-of-bounds message is abridged (the
source interpolates `start`, `current` and the length — no claim
depends on its text). -/
def makeToken (s : ScanState) (ttype : TokenType) : Token :=
  match sliceL s.source s.start s.cur with
  | some lx => ⟨ttype, lx, s.line⟩
  | none => errorToken s ("Token lexeme out of bounds.".toList)

/-- `Scanner::string` (the opening quote is already consumed). -/
def stringTok (s : ScanState) : Token × ScanState :=
  let s := ScanState.stringLoop (s.source.length + 2) s
  if s.isAtEnd then (errorToken s ("Unterminated string.".toList), s)
  else
    let s := s.advC
    (makeToken s .string, s)

/-- `Scanner::number` (first digit already consumed). -/
def numberTok (s : ScanState) : Token × ScanState :=
  let s := ScanState.numLoop (s.source.length + 2) s
  let s :=
    match s.peekNextS with
    | some nextChar =>
      if s.peekS == some '.' && ScanState.isDigitC nextChar then
        ScanState.numLoop (s.source.length + 2) s.advC
      else s
    | none => s
  (makeToken s .number, s)

/-- `Scanner::identifier` (first alpha char already consumed). -/
def identifierTok (s : ScanState) : Token × ScanState :=
  let s := ScanState.identLoop (s.source.length + 2) s
  match sliceL s.source s.start s.cur with
  | some lx =>
    match getKeyword lx with
    | some kw => (⟨kw, lx, s.line⟩, s)
    | none => (⟨.identifier, lx, s.line⟩, s)
  | none => (errorToken s ("Token lexeme out of bounds.".toList), s)

/-- Two-character operator helper (`token!(ch, t1, t2)` macro arm). -/
def matchTok (s : ScanState) (expected : Char) (t1 t2 : TokenType) :
    Token × ScanState :=
  let (b, s) := s.matchCharS expected
  if b then (makeToken s t1, s) else (makeToken s t2, s)

/-- `Scanner::scan_token` (scanner.rs lines 119-171). -/
def scanToken (s : ScanState) : Token × ScanState :=
  let s := ScanState.skipWsLoop (s.source.length + 2) s
  let s := { s with start := s.cur }
  if s.isAtEnd then (makeToken s .eof, s)
  else
    match s.peekS with
    | some c =>
      let s := s.advC
      if ScanState.isAlphaC c then identifierTok s
      else if ScanState.isDigitC c then numberTok s
      else
        match c with
        | '(' => (makeToken s .leftParen, s)
        | ')' => (makeToken s .rightParen, s)
        | '\x7b' => (makeToken s .leftBrace, s)
        | '\x7d' => (makeToken s .rightBrace, s)
        | ';' => (makeToken s .semicolon, s)
        | ',' => (makeToken s .comma, s)
        | '.' => (makeToken s .dot, s)
        | '-' => (makeToken s .minus, s)
        | '+' => (makeToken s .plus, s)
        | '/' => (makeToken s .slash, s)
        | '*' => (makeToken s .star, s)
        | '!' => matchTok s '=' .bangEqual .bang
        | '=' => matchTok s '=' .equalEqual .equal
        | '<' => matchTok s '=' .lessEqual .less
        | '>' => matchTok s '=' .greaterEqual .greater
        | '"' => stringTok s
        | _ => (errorToken s ("Unexpected character.".toList), s)
    | none =>
      -- `advance` returned `None` (unreachable: `is_at_end` was false);
      -- the source then falls through to the trailing `error_token`.
      (errorToken s.advC ("Unexpected character.".toList), s.advC)

/-! ## compiler.rs -/

/-- `Precedence` (compiler.rs lines 68-81); ordering is by discriminant
(derived `PartialOrd`), exposed through `toNat`. -/
inductive Prec where
  | pNone
  | pAssignment
  | pOr
  | pAnd
  | pEquality
  | pComparison
  | pTerm
  | pFactor
  | pUnary
  | pCall
  | pPrimary
deriving DecidableEq, Repr

def Prec.toNat : Prec → Nat
  | .pNone => 0
  | .pAssignment => 1
  | .pOr => 2
  | .pAnd => 3
  | .pEquality => 4
  | .pComparison => 5
  | .pTerm => 6
  | .pFactor => 7
  | .pUnary => 8
  | .pCall => 9
  | .pPrimary => 10

/-- `byte_to_prec` (compiler.rs lines 83-103). -/
def byteToPrec (byte : Nat) : Except String Prec :=
  match byte with
  | 0 => .ok .pNone
  | 1 => .ok .pAssignment
  | 2 => .ok .pOr
  | 3 => .ok .pAnd
  | 4 => .ok .pEquality
  | 5 => .ok .pComparison
  | 6 => .ok .pTerm
  | 7 => .ok .pFactor
  | 8 => .ok .pUnary
  | 9 => .ok .pCall
  | 10 => .ok .pPrimary
  | b =>
    .error ("Invalid conversion to precedence from byte: " ++ toString b
      ++ "\nPrecedence does not exist.")

/-- The four parse actions stored as function pointers in the rule
table (`Compiler::grouping`, `::unary`, `::binary`, `::number`),
represented by name; `compGo` below dispatches on them. -/
inductive ParseFnId where
  | groupingFn
  | unaryFn
  | binaryFn
  | numberFn
deriving DecidableEq, Repr

/-- `ParseRule` (compiler.rs lines 107-112): `pfx`/`ifx` are the source's
`prefix`/`infix` fields. -/
structure ParseRule where
  pfx : Option ParseFnId
  ifx : Option ParseFnId
  prec : Prec
deriving DecidableEq, Repr

/-- The `RULES` table (compiler.rs lines 21-66), indexed by the token
type discriminant; written as a total match in declaration order (the
source's `RULES.get` fallback for an index ≥ 40 is unreachable for the
40-variant enum). -/
def getRule : TokenType → ParseRule
  | .leftParen => ⟨some .groupingFn, none, .pNone⟩
  | .rightParen => ⟨none, none, .pNone⟩
  | .leftBrace => ⟨none, none, .pNone⟩
  | .rightBrace => ⟨none, none, .pNone⟩
  | .comma => ⟨none, none, .pNone⟩
  | .dot => ⟨none, none, .pNone⟩
  | .minus => ⟨some .unaryFn, some .binaryFn, .pTerm⟩
  | .plus => ⟨none, some .binaryFn, .pTerm⟩
  | .semicolon => ⟨none, none, .pNone⟩
  | .slash => ⟨none, some .binaryFn, .pFactor⟩
  | .star => ⟨none, some .binaryFn, .pFactor⟩
  | .bang => ⟨none, none, .pNone⟩
  | .bangEqual => ⟨none, none, .pNone⟩
  | .equal => ⟨none, none, .pNone⟩
  | .equalEqual => ⟨none, none, .pNone⟩
  | .greater => ⟨none, none, .pNone⟩
  | .greaterEqual => ⟨none, none, .pNone⟩
  | .less => ⟨none, none, .pNone⟩
  | .lessEqual => ⟨none, none, .pNone⟩
  | .identifier => ⟨none, none, .pNone⟩
  | .string => ⟨none, none, .pNone⟩
  | .number => ⟨some .numberFn, none, .pNone⟩
  | .kwAnd => ⟨none, none, .pNone⟩
  | .kwClass => ⟨none, none, .pNone⟩
  | .kwElse => ⟨none, none, .pNone⟩
  | .kwFalse => ⟨none, none, .pNone⟩
  | .kwFor => ⟨none, none, .pNone⟩
  | .kwFun => ⟨none, none, .pNone⟩
  | .kwIf => ⟨none, none, .pNone⟩
  | .kwNil => ⟨none, none, .pNone⟩
  | .kwOr => ⟨none, none, .pNone⟩
  | .kwPrint => ⟨none, none, .pNone⟩
  | .kwReturn => ⟨none, none, .pNone⟩
  | .kwSuper => ⟨none, none, .pNone⟩
  | .kwThis => ⟨none, none, .pNone⟩
  | .kwTrue => ⟨none, none, .pNone⟩
  | .kwVar => ⟨none, none, .pNone⟩
  | .kwWhile => ⟨none, none, .pNone⟩
  | .error => ⟨none, none, .pNone⟩
  | .eof => ⟨none, none, .pNone⟩

/-- `Compiler` state (compiler.rs lines 114-123).  `compiling_file` is
`None` on the whole `to_chunk` path modelled here (`to_file` is the only
writer and is not involved in any claim), so it is left out; in
`emit_byte`/`make_constant` the `(Some chunk, None)` match arms apply. -/
structure CompState where
  curTok : Option Token
  prevTok : Option Token
  compilingChunk : Option Chunk
  hadError : Bool
  panicMode : Bool
  scanner : ScanState
deriving DecidableEq, Repr

namespace CompState

/-- `Compiler::error_at` (compiler.rs lines 376-391): return early in
panic mode, otherwise print the diagnostic (dropped here) and set the
sticky flag.  Note the source never sets `panic_mode` to `true`. -/
def errorAt (st : CompState) (_token : Token) : CompState :=
  if st.panicMode then st else { st with hadError := true }

/-- `Compiler::error_at_current`. -/
def errorAtCurrent (st : CompState) : CompState :=
  match st.curTok with
  | some current => st.errorAt current
  | none => st

/-- Loop body of `Compiler::advance`: scan tokens, reporting and
skipping `Error` tokens.  Fueled; each error token consumed advances
the scanner cursor, so the fuel passed by `cAdvance` suffices on every
input reached by a proved statement. -/
def cAdvanceLoop : Nat → CompState → CompState
  | 0, st => st
  | fuel + 1, st =>
    let (tok, sc) := scanToken st.scanner
    let st := { st with scanner := sc, curTok := some tok }
    if tok.ttype ≠ TokenType.error then st
    else cAdvanceLoop fuel st.errorAtCurrent

/-- `Compiler::advance` (compiler.rs lines 272-285). -/
def cAdvance (st : CompState) : CompState :=
  cAdvanceLoop (st.scanner.source.length + 2) { st with prevTok := st.curTok }

/-- `Compiler::consume` (compiler.rs lines 287-296). -/
def cConsume (st : CompState) (ttype : TokenType) : CompState :=
  match st.curTok with
  | some current => if current.ttype = ttype then st.cAdvance else st.errorAtCurrent
  | none => st.errorAtCurrent

/-- `Compiler::emit_byte` (compiler.rs lines 306-328), in the
`(Some chunk, None)` configuration of `to_chunk`. -/
def emitByte (st : CompState) (byte : Nat) : CompState :=
  match st.prevTok with
  | none => st
  | some prev =>
    match st.compilingChunk with
    | some chunk =>
      { st with compilingChunk := some (chunk.writeByte byte prev.line) }
    | none => st

/-- `Compiler::emit_bytes`. -/
def emitBytes (st : CompState) (byte1 byte2 : Nat) : CompState :=
  (st.emitByte byte1).emitByte byte2

/-- `Compiler::emit_return`. -/
def emitReturn (st : CompState) : CompState := st.emitByte OpCode.opReturn.toByte

/-- `Compiler::make_constant` (compiler.rs lines 346-358); the
`compiling_file` arm is dead on the `to_chunk` path. -/
def makeConstant (st : CompState) (value : Value) : CompState × Except String Nat :=
  match st.compilingChunk with
  | some chunk =>
    let (c, idx) := chunk.addConstant value
    ({ st with compilingChunk := some c }, .ok idx)
  | none => (st, .error ("No compiling chunk available."))

/-- `Compiler::emit_constant`. -/
def emitConstant (st : CompState) (value : Value) : CompState :=
  match st.makeConstant value with
  | (st', .ok constant) => st'.emitBytes OpCode.opConstant.toByte constant
  | (st', .error _) => st'.errorAtCurrent

end CompState

def digitVal (c : Char) : Nat := c.toNat - '0'.toNat

/-- Parse a non-empty all-digit string as a natural number. -/
def parseDigits (l : List Char) : Option Nat :=
  if l ≠ [] ∧ l.all ScanState.isDigitC then
    some (l.foldl (fun acc c => acc * 10 + digitVal c) 0)
  else none

/-- `previous.get_lexeme().parse::<Value>()` in `Compiler::number`
(compiler.rs line 180): the lexeme (digits with an optional single
decimal point produced by `Scanner::number`) parsed as a number value.
The exact `Number` value stands in for the parsed `f64`. -/
def parseValueLexeme (l : List Char) : Option Value :=
  match parseDigits l with
  | some n => some (.valNumber (Number.ofInt n))
  | none =>
    let intPart := l.takeWhile (fun c => c ≠ '.')
    match l.dropWhile (fun c => c ≠ '.') with
    | '.' :: frac =>
      match parseDigits intPart, parseDigits frac with
      | some a, some b =>
        some (.valNumber ((Number.ofInt a).add
          ((Number.ofInt b).div (Number.ofInt (10 ^ frac.length)))))
      | _, _ => none
    | _ => none

/-- `Compiler::number` (compiler.rs lines 178-187). -/
def cNumber (st : CompState) : CompState :=
  match st.prevTok with
  | none => st
  | some prev =>
    match parseValueLexeme prev.lexeme with
    | some value => st.emitConstant value
    | none => st.errorAtCurrent   -- "Unable to parse value to number."

/-- The mutually recursive parse procedures of compiler.rs
(`parse_precedence` split into its entry and its infix loop, plus
`grouping`, `unary`, `binary`), identified by a call tag. -/
inductive PCall where
  | precCall (p : Prec)
  | loopCall (p : Prec)
  | groupingCall
  | unaryCall
  | binaryCall
deriving DecidableEq, Repr

/-- The recursive core of the Pratt parser, iterated on a fuel bound
(the source's recursion terminates because every cycle consumes source
text; the fuel passed by `toChunk` is large enough, which the
compile-correctness lemmas below establish where needed). -/
def compGo : Nat → PCall → CompState → CompState
  | 0, _, st => st
  | fuel + 1, call, st =>
    match call with
    | .precCall p =>
      -- `parse_precedence` (compiler.rs lines 233-270), entry
      let st := st.cAdvance
      match st.prevTok with
      | none => st
      | some prev =>
        match (getRule prev.ttype).pfx with
        | none => st.errorAtCurrent   -- "Expect expression."
        | some fid =>
          let st :=
            match fid with
            | .numberFn => cNumber st
            | .groupingFn => compGo fuel .groupingCall st
            | .unaryFn => compGo fuel .unaryCall st
            | .binaryFn => compGo fuel .binaryCall st
          compGo fuel (.loopCall p) st
    | .loopCall p =>
      -- `parse_precedence`, the `while let Some(current)` infix loop
      match st.curTok with
      | none => st
      | some current =>
        if (getRule current.ttype).prec.toNat < p.toNat then st  -- break
        else
          let st := st.cAdvance
          let st :=
            match st.prevTok with
            | none => st
            | some prev =>
              match (getRule prev.ttype).ifx with
              | some .binaryFn => compGo fuel .binaryCall st
              | some .numberFn => cNumber st
              | some .groupingFn => compGo fuel .groupingCall st
              | some .unaryFn => compGo fuel .unaryCall st
              | none => st.errorAtCurrent   -- "Expect expression."
          compGo fuel (.loopCall p) st
    | .groupingCall =>
      -- `grouping` (lines 189-195): `expression(); consume(RightParen)`
      let st := compGo fuel (.precCall .pAssignment) st
      st.cConsume .rightParen
    | .unaryCall =>
      -- `unary` (lines 197-211): the operator type is captured before
      -- the operand is parsed
      let operatorType := st.prevTok.map Token.ttype
      let st := compGo fuel (.precCall .pUnary) st
      match operatorType with
      | some .minus => st.emitByte OpCode.opNegate.toByte
      | none => st.errorAtCurrent   -- "No unary operator found."
      | some _ => st
    | .binaryCall =>
      -- `binary` (lines 213-231)
      match st.prevTok with
      | none => st
      | some operator =>
        let rule := getRule operator.ttype
        let st :=
          match byteToPrec (rule.prec.toNat + 1) with
          | .ok prec2 => compGo fuel (.precCall prec2) st
          | .error _ => st.errorAtCurrent
        match operator.ttype with
        | .plus => st.emitByte OpCode.opAdd.toByte
        | .minus => st.emitByte OpCode.opSubtract.toByte
        | .star => st.emitByte OpCode.opMultiply.toByte
        | .slash => st.emitByte OpCode.opDivide.toByte
        | _ => st

/-- Fuel `toChunk` hands to `compGo`; linear in the source length. -/
def toChunkFuel (source : List Char) : Nat := 8 * source.length + 32

/-- `Compiler::new` followed by `Compiler::to_chunk` (compiler.rs lines
126-138 and 161-172): reset the flags, install the chunk, parse one
expression, consume EOF, emit the return instruction (`end`; its
`DEBUG_PRINT_CODE` disassembly only prints), and hand back
`compiling_chunk.take()` together with the final compiler state. -/
def toChunk (source : List Char) (chunk : Chunk) : CompState × Option Chunk :=
  let st : CompState :=
    { curTok := none, prevTok := none, compilingChunk := some chunk,
      hadError := false, panicMode := false, scanner := ScanState.new source }
  let st := st.cAdvance
  let st := compGo (toChunkFuel source) (.precCall .pAssignment) st
  let st := st.cConsume .eof
  let st := st.emitReturn
  ({ st with compilingChunk := none }, st.compilingChunk)

/-! ## vm.rs -/

/-- VM state (vm.rs lines 14-19) plus `run`'s local trace `offset`
variable, which lives across loop iterations and participates in
control flow through the `DEBUG_TRACE_EXECUTION` disassembly.  The
operand stack is the `VecDeque`: the list head is the deque front,
where `push_stack`/`pop_stack` operate (the top of the stack). -/
structure VmSt where
  chunk : Option Chunk
  stack : List Value
  ip : Nat
  offset : Nat
deriving DecidableEq, Repr

namespace VmSt

/-- `Vm::push_stack` (`push_front`). -/
def pushStack (vm : VmSt) (value : Value) : VmSt :=
  { vm with stack := value :: vm.stack }

/-- `Vm::peek_stack`: `stack.get(stack.len() - (distance + 1))`, an
index from the *back* of the deque (the bottom of the stack).  When
`distance + 1 > len` the `usize` subtraction wraps in a release build
to a huge out-of-range index (`None`); a debug build would panic, but
no reachable execution modelled here takes that path. -/
def peekStack (vm : VmSt) (distance : Nat) : Option Value :=
  if distance + 1 ≤ vm.stack.length then
    vm.stack.get? (vm.stack.length - (distance + 1))
  else none

/-- Outcome of one iteration of `Vm::run`'s loop. -/
inductive Outcome where
  | next (vm : VmSt)
  | retOk (printed : Option Value)
  | errHalt (msg : String)
  | panic
deriving DecidableEq, Repr

/-- `Vm::runtime_error` followed by `return Err(InterpretRuntimeError)`:
prints the message, then looks up `chunk.lines[self.ip]` by direct
index — a panic when `ip` is out of the line table — and resets the
stack (the local state is discarded here because the loop exits). -/
def vmRuntimeError (vm : VmSt) (msg : String) : Outcome :=
  match vm.chunk with
  | some c => if vm.ip < c.lines.length then .errHalt msg else .panic
  | none => .errHalt msg

/-- The `binary_operation!` macro (vm.rs lines 94-115): peek distances 0
and 1 (both counted from the deque back, i.e. the stack bottom), check
both are numbers, then pop the top two (`a` then `b`) and push
`mk (b.as_number() op a.as_number())`. -/
def binaryOperation (vm : VmSt) (mk : Number → Value) (op : Number → Number → Number) : Outcome :=
  match vm.peekStack 0, vm.peekStack 1 with
  | some a, some b =>
    if !a.isNumber || !b.isNumber then
      vm.vmRuntimeError ("Operands must be numbers.")
    else
      match vm.stack with
      | a2 :: b2 :: rest =>
        .next { vm with stack := mk (op b2.asNumber a2.asNumber) :: rest }
      | [_] => .next { vm with stack := [] }  -- second pop fails: no push
      | [] => .next vm                        -- first pop fails: no-op
  | _, _ => vm.vmRuntimeError ("Operands missing.")

/-- The `OpNegate` arm (vm.rs lines 160-171): peek distance 0 (deque
back), require a number, then pop the front and push its negation. -/
def execNegate (vm : VmSt) : Outcome :=
  match vm.peekStack 0 with
  | some value =>
    if !value.isNumber then vm.vmRuntimeError ("Operand must be number.")
    else
      match vm.stack with
      | v :: rest =>
        .next { vm with stack := Value.fromNumber v.asNumber.negN :: rest }
      | [] => .next vm   -- pop failed (unreachable after the peek)
  | none => .next vm     -- `if let Some` fails: the instruction is a no-op

end VmSt

/-- `Vm::read_byte` / `Vm::read_constant` results: a value, the
`Err(InterpretRuntimeError)` taken when no chunk is loaded, or the
panic of a direct out-of-bounds index. -/
inductive ReadOut (α : Type) where
  | ok (val : α) (vm : VmSt)
  | err
  | panic
deriving DecidableEq, Repr

/-- `Vm::read_byte` (vm.rs lines 255-262): with a loaded chunk it reads
`chunk.code[self.ip]` by direct index — out of range panics — and
increments `ip`; with no chunk it returns `Err(InterpretRuntimeError)`. -/
def readByte (vm : VmSt) : ReadOut Nat :=
  match vm.chunk with
  | some c =>
    match c.code.get? vm.ip with
    | some byte => .ok byte { vm with ip := vm.ip + 1 }
    | none => .panic
  | none => .err

/-- `Vm::read_constant` (vm.rs lines 264-271):
`chunk.constants[chunk.code[self.ip] as usize]`, both direct indexes. -/
def readConstant (vm : VmSt) : ReadOut Value :=
  match vm.chunk with
  | some c =>
    match c.code.get? vm.ip with
    | some idx =>
      match c.constants.get? idx with
      | some constant => .ok constant { vm with ip := vm.ip + 1 }
      | none => .panic
    | none => .panic
  | none => .err

/-- One iteration of `Vm::run`'s loop (vm.rs lines 119-208): the
`DEBUG_TRACE_EXECUTION` trace (whose disassembly failure aborts the
run), then fetch via `read_byte`, decode via `byte_to_op`, dispatch.
Only the seven opcodes `byte_to_op` can produce are dispatched; the
source's arms for `OpNil`/`OpTrue`/`OpFalse`/`OpNot`/`OpGreater`/
`OpLess`/`OpEqual` name enum variants chunk.rs does not declare and are
unreachable from the decoder. -/
def step (vm : VmSt) : VmSt.Outcome :=
  match vm.chunk with
  | none =>
    -- trace skipped (`if let Some(chunk)`), then `read_byte()?` yields
    -- `Err(InterpretRuntimeError)` with nothing printed
    .errHalt ""
  | some c =>
    match c.dissasembleInstruction vm.offset with
    | .panic => .panic
    | .err e => .errHalt e   -- println!(err); Err(InterpretRuntimeError)
    | .ok offset2 =>
      let vm1 := { vm with offset := offset2 }
      match readByte vm1 with
      | .panic => .panic
      | .err => .errHalt ""
      | .ok instruction vm2 =>
        match byteToOp instruction with
        | .error e => .errHalt e
        | .ok operation =>
          match operation with
          | .opReturn =>
            match vm2.stack with
            | v :: _ => .retOk (some v)
            | [] => .retOk none
          | .opConstant =>
            match readConstant vm2 with
            | .panic => .panic
            | .err => .errHalt ""
            | .ok constant vm3 => .next (vm3.pushStack constant)
          | .opNegate => vm2.execNegate
          | .opAdd => vm2.binaryOperation Value.fromNumber Number.add
          | .opSubtract => vm2.binaryOperation Value.fromNumber Number.sub
          | .opMultiply => vm2.binaryOperation Value.fromNumber Number.mul
          | .opDivide => vm2.binaryOperation Value.fromNumber Number.div

/-- Result of a whole `Vm::run`. -/
inductive RunRes where
  | okRun (printed : Option Value)
  | errRun (msg : String)
  | panicRun
  | stuckRun
deriving DecidableEq, Repr

/-- `Vm::run`'s loop, iterated on fuel. -/
def runFuel : Nat → VmSt → RunRes
  | 0, _ => .stuckRun
  | fuel + 1, vm =>
    match step vm with
    | .next vm' => runFuel fuel vm'
    | .retOk printed => .okRun printed
    | .errHalt m => .errRun m
    | .panic => .panicRun

/-- Sufficient fuel for `Vm::run` from `ip = 0`: every `.next` step
advances `ip` by at least one and requires `ip < code.length`, so
`code.length + 1` iterations always reach a halt. -/
def vmRunFuelOf (vm : VmSt) : Nat :=
  match vm.chunk with
  | some c => c.code.length + 1
  | none => 1

/-- `Vm::run`. -/
def vmRun (vm : VmSt) : RunRes := runFuel (vmRunFuelOf vm) vm

/-- Overall result of `Vm::interpret_source`. -/
inductive InterpretOut where
  | compileErr
  | ran (r : RunRes)
deriving DecidableEq, Repr

/-- `Vm::interpret_source` (vm.rs lines 30-44): reset the stack, compile
into a fresh chunk, fail with `InterpretCompileError` if `to_chunk`
returns `None`, else install the chunk, set `ip = 0` and run. -/
def interpretSource (source : List Char) : InterpretOut :=
  match (toChunk source Chunk.new).2 with
  | none => .compileErr
  | some chunk =>
    .ran (vmRun { chunk := some chunk, stack := [], ip := 0, offset := 0 })

/-! ### `Vm::interpret_op_code` (vm.rs lines 46-91) -/

/-- First loop of `interpret_op_code`: split the byte stream into
alternating instruction bytes and line bytes via the `previous`
accumulator; a trailing unpaired byte stays in `previous` and is
dropped. -/
def pairUpGo : Option Nat → List Nat → List Nat × List Int
  | _, [] => ([], [])
  | none, op :: rest => pairUpGo (some op) rest
  | some instruction, op :: rest =>
    let (is, ls) := pairUpGo none rest
    (instruction :: is, (op : Int) :: ls)

/-- Second loop of `interpret_op_code`, fueled on the index distance to
the end: translate instruction byte 1 (`OpConstant`) plus its following
instruction byte into an interned constant and its pool index, copy
every other byte.  `none` models the panics of the direct `lines[i]` /
`lines[i + 1]` indexes (all unreachable here since both lists have equal
length) and fuel exhaustion (unreachable from `interpretOpCodeChunk`). -/
def buildLoop : Nat → List Nat → List Int → Nat → Chunk → Option Chunk
  | 0, _, _, _, _ => none
  | fuel + 1, instructions, lines, i, c =>
    if i = instructions.length then some c
    else
      match instructions.get? i with
      | none => none   -- `instructions[i]` panic (unreachable: i < length)
      | some current =>
        if current = 1 then
          match instructions.get? (i + 1) with
          | some next =>
            match lines.get? i, lines.get? (i + 1) with
            | some li, some li2 =>
              let (c1, constant) := c.addConstant (Value.fromNumber (Number.ofInt next))
              let c2 := (c1.writeInstruction .opConstant li).writeByte constant li2
              buildLoop fuel instructions lines (i + 2) c2
            | _, _ => none
          | none => buildLoop fuel instructions lines (i + 1) c  -- nothing emitted
        else
          match lines.get? i with
          | some li => buildLoop fuel instructions lines (i + 1) (c.writeByte current li)
          | none => none

/-- The chunk `Vm::interpret_op_code` builds before running it. -/
def interpretOpCodeChunk (opCode : List Nat) : Option Chunk :=
  let (instructions, lines) := pairUpGo none opCode
  buildLoop (instructions.length + 1) instructions lines 0 Chunk.new

/-- `Vm::interpret_op_code`: build the chunk, install it, run from
`ip = 0` (the `Option` wraps the modelled panics of the build loop,
which claim C9 proves never occur). -/
def interpretOpCode (opCode : List Nat) : Option RunRes :=
  (interpretOpCodeChunk opCode).map fun chunk =>
    vmRun { chunk := some chunk, stack := [], ip := 0, offset := 0 }

/-! ## Arithmetic expressions (specification side)

Claim C2 quantifies over well-formed arithmetic expressions.  They are
represented by the AST `Expr`; `render` prints an AST with the minimal
parenthesisation dictated by the claim's precedence convention
(`* /` over `+ -`, left associativity, unary minus binding tighter than
any binary operator), and `evalE` is the reference evaluation. -/

inductive BinOp where
  | bAdd
  | bSub
  | bMul
  | bDiv
deriving DecidableEq, Repr

/-- Binding precedence of a binary operator on the `Precedence.toNat`
scale (`Term = 6`, `Factor = 7`). -/
def BinOp.bp : BinOp → Nat
  | .bAdd => 6
  | .bSub => 6
  | .bMul => 7
  | .bDiv => 7

def BinOp.opChar : BinOp → Char
  | .bAdd => '+'
  | .bSub => '-'
  | .bMul => '*'
  | .bDiv => '/'

/-- The opcode byte the compiler emits for the operator. -/
def BinOp.opByte : BinOp → Nat
  | .bAdd => OpCode.opAdd.toByte
  | .bSub => OpCode.opSubtract.toByte
  | .bMul => OpCode.opMultiply.toByte
  | .bDiv => OpCode.opDivide.toByte

/-- The `Number` operation the VM performs for the operator. -/
def BinOp.numOp : BinOp → Number → Number → Number
  | .bAdd => Number.add
  | .bSub => Number.sub
  | .bMul => Number.mul
  | .bDiv => Number.div

/-- Arithmetic expressions over natural-number literals. -/
inductive Expr where
  | num (n : Nat)
  | neg (a : Expr)
  | bin (op : BinOp) (a b : Expr)
deriving DecidableEq, Repr

def Expr.size : Expr → Nat
  | .num _ => 1
  | .neg a => a.size + 1
  | .bin _ a b => a.size + b.size + 1

/-- Number of numeric literals (= constants interned when compiling). -/
def Expr.lits : Expr → Nat
  | .num _ => 1
  | .neg a => a.lits
  | .bin _ a b => a.lits + b.lits

/-- The literal values in emission order. -/
def Expr.litVals : Expr → List Number
  | .num n => [Number.ofInt n]
  | .neg a => a.litVals
  | .bin _ a b => a.litVals ++ b.litVals

/-- Reference evaluation under the standard reading (same `Number`
carrier as the VM). -/
def evalE : Expr → Number
  | .num n => Number.ofInt n
  | .neg a => (evalE a).negN
  | .bin op a b => op.numOp (evalE a) (evalE b)

def digitChar (d : Nat) : Char := Char.ofNat (48 + d)

/-- Decimal digits of `n`, most significant first (fueled helper). -/
def natCharsAux : Nat → Nat → List Char
  | 0, _ => []
  | fuel + 1, n =>
    if n < 10 then [digitChar n]
    else natCharsAux fuel (n / 10) ++ [digitChar (n % 10)]

def natChars (n : Nat) : List Char := natCharsAux (n + 1) n

/-- Top-level binding strength of an expression on the precedence
scale: a literal never needs parentheses (10), unary minus binds at
`Unary = 8`, a binary node at its operator's precedence. -/
def Expr.tp : Expr → Nat
  | .num _ => 10
  | .neg _ => 8
  | .bin op _ _ => op.bp

/-- Render an expression as source text in a context requiring binding
strength `p`: parenthesise iff the expression binds looser than `p`.
Subterm contexts follow the claim's convention: a binary operator
requires `bp` on the left and `bp + 1` on the right (left
associativity), unary minus requires `Unary = 8`. -/
def render (e : Expr) (p : Nat) : List Char :=
  let bare :=
    match e with
    | .num n => natChars n
    | .neg a => '-' :: render a 8
    | .bin op a b => render a op.bp ++ op.opChar :: render b (op.bp + 1)
  if e.tp < p then '(' :: (bare ++ [')']) else bare

/-- The code bytes the compiler emits for `e` when the constant pool
already holds `k` values: each literal becomes `[OpConstant, index]`
with the (possibly wrapped) index returned by `add_constant`, operators
follow their operands. -/
def codeOf : Expr → Nat → List Nat
  | .num _, k => [OpCode.opConstant.toByte, k % 256]
  | .neg a, k => codeOf a k ++ [OpCode.opNegate.toByte]
  | .bin op a b, k => codeOf a k ++ codeOf b (k + a.lits) ++ [op.opByte]

/-- The constants the compiler appends to the pool for `e`. -/
def constsOf (e : Expr) : List Value := e.litVals.map Value.valNumber

/-- Number of VM loop iterations needed to execute `codeOf e k`. -/
def stepsOf : Expr → Nat
  | .num _ => 1
  | .neg a => stepsOf a + 1
  | .bin _ a b => stepsOf a + stepsOf b + 1

/-- What executing `codeOf e k` against constant pool `P` pushes: each
literal pushes `P[(k + j) % 256]` (`j` the literal's ordinal), read as
a number.  With an unwrapped in-range index this is the literal itself
(claim C2 amended); with a wrapped index it is whatever sits at the
wrapped position (the C2 counterexample). -/
def evalPool : Expr → Nat → List Value → Number
  | .num _, k, P =>
    match P.get? (k % 256) with
    | some v => v.asNumber
    | none => ⟨0, 1⟩
  | .neg a, k, P => (evalPool a k P).negN
  | .bin op a b, k, P => op.numOp (evalPool a k P) (evalPool b (k + a.lits) P)

/-- All pool slots `codeOf e k` loads exist and hold numbers. -/
def poolOkB : Expr → Nat → List Value → Bool
  | .num _, k, P =>
    match P.get? (k % 256) with
    | some v => v.isNumber
    | none => false
  | .neg a, k, P => poolOkB a k P
  | .bin _ a b, k, P => poolOkB a k P && poolOkB b (k + a.lits) P

/-! ## Auxiliary definitions used by the claim statements -/

/-- Does a byte decode to an opcode? -/
def byteDecodes (b : Nat) : Bool :=
  match byteToOp b with
  | .ok _ => true
  | .error _ => false

/-- Is a step outcome a continuation (no halt, no error)? -/
def VmSt.Outcome.isNext : VmSt.Outcome → Bool
  | .next _ => true
  | _ => false

/-- The arithmetic the VM performs for each arithmetic opcode byte. -/
def binOfByte : Nat → Number → Number → Number
  | 3 => Number.add
  | 4 => Number.sub
  | 5 => Number.mul
  | 6 => Number.div
  | _ => fun _ _ => ⟨0, 1⟩

/-- Elements at even indices (claim C9's reading of the input split). -/
def evens {α : Type} : List α → List α
  | [] => []
  | [a] => [a]
  | a :: _ :: t => a :: evens t

/-- Elements at odd indices. -/
def odds {α : Type} : List α → List α
  | [] => []
  | [_] => []
  | _ :: b :: t => b :: odds t

/-- Adjacent (instruction, line) pairs of the byte stream; a trailing
unpaired byte is dropped. -/
def pairList : List Nat → List (Nat × Int)
  | [] => []
  | [_] => []
  | a :: b :: t => (a, (b : Int)) :: pairList t

/-- Claim C9's description of the chunk construction, as structural
recursion over the (instruction, line) pairs: byte 1 interns the next
instruction byte as a number constant and emits `OpConstant` plus the
returned pool index, tagged with the two pair lines; any other byte is
copied with its line; a final lone byte 1 emits nothing. -/
def buildPairs : List (Nat × Int) → Chunk → Chunk
  | [], c => c
  | (b, ln) :: rest, c =>
    if b = 1 then
      match rest with
      | [] => c
      | (v, ln2) :: rest2 =>
        let (c1, idx) := c.addConstant (Value.fromNumber (Number.ofInt v))
        buildPairs rest2 ((c1.writeInstruction .opConstant ln).writeByte idx ln2)
    else buildPairs rest (c.writeByte b ln)

/-! ## Claim C2 support: left-spine decomposition of expressions

The Pratt loop in `parse_precedence` consumes an expression's leftmost
atom and then iterates over the binary operators along the left spine.
`decomp` exposes exactly that structure: a head unit (a literal, a
unary minus, or a parenthesised subexpression) followed by the list of
(operator, right-operand) pairs, outermost last. -/

/-- The single-character token types the claims' sources produce. -/
def puncTT : Char → TokenType
  | '(' => .leftParen
  | ')' => .rightParen
  | '+' => .plus
  | '-' => .minus
  | '*' => .star
  | '/' => .slash
  | _ => .error

inductive SpineHead where
  | hnum (n : Nat)
  | hneg (a : Expr)
  | hparen (a : Expr)
deriving DecidableEq, Repr

/-- Left-spine decomposition; a left operand rendered with parentheses
(`tp < bp`) becomes an opaque head, otherwise its own spine extends. -/
def decomp : Expr → SpineHead × List (BinOp × Expr)
  | .num n => (.hnum n, [])
  | .neg a => (.hneg a, [])
  | .bin op a b =>
    if op.bp ≤ a.tp then
      ((decomp a).1, (decomp a).2 ++ [(op, b)])
    else (.hparen a, [(op, b)])

/-- First token of a head unit. -/
def htok : SpineHead → Int → Token
  | .hnum n, line => ⟨.number, natChars n, line⟩
  | .hneg _, line => ⟨.minus, ['-'], line⟩
  | .hparen _, line => ⟨.leftParen, ['('], line⟩

/-- Lexeme length of a head unit's first token. -/
def hlex : SpineHead → Nat
  | .hnum n => (natChars n).length
  | .hneg _ => 1
  | .hparen _ => 1

/-- First token of `render e p`. -/
def headTok (e : Expr) (p : Nat) (line : Int) : Token :=
  if e.tp < p then ⟨.leftParen, ['('], line⟩ else htok (decomp e).1 line

/-- Lexeme length of the first token of `render e p`. -/
def headLexLen (e : Expr) (p : Nat) : Nat :=
  if e.tp < p then 1 else hlex (decomp e).1

def renderHead : SpineHead → List Char
  | .hnum n => natChars n
  | .hneg a => '-' :: render a 8
  | .hparen a => '(' :: (render a 1 ++ [')'])

def renderSpine : List (BinOp × Expr) → List Char
  | [] => []
  | (op, r) :: s => op.opChar :: (render r (op.bp + 1) ++ renderSpine s)

def headLits : SpineHead → Nat
  | .hnum _ => 1
  | .hneg a => a.lits
  | .hparen a => a.lits

def codeOfHead : SpineHead → Nat → List Nat
  | .hnum _, k => [OpCode.opConstant.toByte, k % 256]
  | .hneg a, k => codeOf a k ++ [OpCode.opNegate.toByte]
  | .hparen a, k => codeOf a k

def codeOfSpine : List (BinOp × Expr) → Nat → List Nat
  | [], _ => []
  | (op, r) :: s, k => codeOf r k ++ op.opByte :: codeOfSpine s (k + r.lits)

def constsOfHead : SpineHead → List Value
  | .hnum n => [Value.valNumber (Number.ofInt n)]
  | .hneg a => constsOf a
  | .hparen a => constsOf a

def constsOfSpine : List (BinOp × Expr) → List Value
  | [] => []
  | (_, r) :: s => constsOf r ++ constsOfSpine s

def litsSpine : List (BinOp × Expr) → Nat
  | [] => 0
  | (_, r) :: s => r.lits + litsSpine s

def headSize : SpineHead → Nat
  | .hnum _ => 1
  | .hneg a => a.size + 1
  | .hparen a => a.size

def spineSize : List (BinOp × Expr) → Nat
  | [] => 0
  | (_, r) :: s => r.size + 1 + spineSize s

/-- The spine operators descend (non-strictly) in binding precedence
from innermost to outermost, ending exactly at `t` (`chainD s t` is
trivial for an empty spine). -/
def chainD : List (BinOp × Expr) → Nat → Prop
  | [], _ => True
  | [(op, _)], t => op.bp = t
  | (op, _) :: (op2, b2) :: s, t => op2.bp ≤ op.bp ∧ chainD ((op2, b2) :: s) t

/-- The characters that may follow a rendered expression without
extending its final token (no digit, no decimal point). -/
def noGlue : List Char → Prop
  | [] => True
  | c :: _ => ScanState.isDigitC c = false ∧ c ≠ '.'

/-- Token precedence of a boundary character (rule-table precedence of
the token it scans to). -/
def bPrec (c : Char) : Nat :=
  if c = '+' ∨ c = '-' then 6 else if c = '*' ∨ c = '/' then 7 else 0

/-- `rest` is a legal right boundary for a `parse_precedence(p)` call:
either end of input or a single closing/operator character whose token
precedence is below `p` (so the infix loop stops), with a `/` boundary
not opening a comment. -/
def boundary (rest : List Char) (p : Nat) : Prop :=
  match rest with
  | [] => True
  | c :: r2 =>
    (c = ')' ∨ c = '+' ∨ c = '-' ∨ c = '*' ∨ c = '/') ∧ bPrec c < p ∧
      (c = '/' → ∀ d r3, r2 = d :: r3 → d ≠ '/' ∧ d ≠ '*')

/-- The token scanned at a boundary. -/
def bToken (rest : List Char) (line : Int) : Token :=
  match rest with
  | [] => ⟨.eof, [], line⟩
  | c :: _ => ⟨puncTT c, [c], line⟩

/-- Cursor progress made by scanning the boundary token. -/
def bLexLen (rest : List Char) : Nat :=
  match rest with
  | [] => 0
  | _ :: _ => 1

/-- The `Prec` value with the given `toNat`. -/
def precOfNat : Nat → Prec
  | 0 => .pNone
  | 1 => .pAssignment
  | 2 => .pOr
  | 3 => .pAnd
  | 4 => .pEquality
  | 5 => .pComparison
  | 6 => .pTerm
  | 7 => .pFactor
  | 8 => .pUnary
  | 9 => .pCall
  | _ => .pPrimary

/-- `k` consecutive `.next` iterations of `Vm::run`'s loop. -/
inductive StepsTo : VmSt → Nat → VmSt → Prop where
  | refl (vm : VmSt) : StepsTo vm 0 vm
  | tail {vm vm2 vm3 : VmSt} {k : Nat} :
      step vm = .next vm2 → StepsTo vm2 k vm3 → StepsTo vm (k + 1) vm3

/-- The C2 counterexample expression: a left-associated sum of 256
zero literals followed by the literal 1, i.e. the source
`"0+0+...+0+1"` with 257 numeric literals. -/
def eBig : Expr :=
  (List.replicate 255 (Expr.num 0) ++ [Expr.num 1]).foldl
    (fun acc z => Expr.bin .bAdd acc z) (Expr.num 0)

/-- First token of `renderSpine s ++ rest`. -/
def sTok (s : List (BinOp × Expr)) (rest : List Char) (line : Int) : Token :=
  match s with
  | [] => bToken rest line
  | (op, _) :: _ => ⟨puncTT op.opChar, [op.opChar], line⟩

/-- Lexeme length of that token. -/
def sLex (s : List (BinOp × Expr)) (rest : List Char) : Nat :=
  match s with
  | [] => bLexLen rest
  | _ :: _ => 1

/-- The chunk as extended by an error-free emission of `code2` bytes
and `consts2` constants, all on source line 1. -/
def extendChunk (c : Chunk) (code2 : List Nat) (consts2 : List Value) : Chunk :=
  ⟨c.code ++ code2, c.constants ++ consts2,
    c.lines ++ List.replicate code2.length 1⟩

/-- The compiler state at the end of a successful parse step over
source `S`: the boundary token is current, the scanner sits right
after it, no errors. -/
def postSt (S : List Char) (endPos : Nat) (rest : List Char) (start2 : Nat)
    (prevT : Token) (ck : Chunk) : CompState :=
  { curTok := some (bToken rest 1), prevTok := some prevT,
    compilingChunk := some ck, hadError := false, panicMode := false,
    scanner := ⟨start2, endPos + bLexLen rest, 1, S⟩ }

/-- Correctness statement for one `parse_precedence(p)` call on the
rendering of `e` in a context of binding strength `p` (any `p`): entry
with the first token of `render e p` current and the scanner just past
it; exit in the `postSt` shape with exactly `codeOf e`/`constsOf e`
appended to the chunk. -/
def ParseGoal (e : Expr) : Prop :=
  ∀ (p : Nat) (S : List Char) (pos : Nat) (rest : List Char) (st0 : Nat)
    (pv : Option Token) (ck : Chunk) (fuel : Nat),
    1 ≤ p → p ≤ 8 → pos ≤ S.length →
    S.drop pos = render e p ++ rest →
    boundary rest p →
    8 * e.size + 2 ≤ fuel →
    ∃ (st2 : Nat) (pv2 : Token), pv2.line = 1 ∧
      compGo fuel (.precCall (precOfNat p))
        ⟨some (headTok e p 1), pv, some ck, false, false,
          ⟨st0, pos + headLexLen e p, 1, S⟩⟩
        = postSt S (pos + (render e p).length) rest st2 pv2
            (extendChunk ck (codeOf e ck.constants.length) (constsOf e))

/-- `ParseGoal` restricted to contexts that do not force parentheses
(`p ≤ e.tp`), with the tighter fuel bound `8 * e.size`. -/
def BareGoal (e : Expr) : Prop :=
  ∀ (p : Nat) (S : List Char) (pos : Nat) (rest : List Char) (st0 : Nat)
    (pv : Option Token) (ck : Chunk) (fuel : Nat),
    1 ≤ p → p ≤ 8 → p ≤ e.tp → pos ≤ S.length →
    S.drop pos = render e p ++ rest →
    boundary rest p →
    8 * e.size ≤ fuel →
    ∃ (st2 : Nat) (pv2 : Token), pv2.line = 1 ∧
      compGo fuel (.precCall (precOfNat p))
        ⟨some (headTok e p 1), pv, some ck, false, false,
          ⟨st0, pos + headLexLen e p, 1, S⟩⟩
        = postSt S (pos + (render e p).length) rest st2 pv2
            (extendChunk ck (codeOf e ck.constants.length) (constsOf e))

/-- Correctness statement for the infix loop of `parse_precedence(p)`
over a remaining left-spine `s` (`chainD s t` with `p ≤ t` keeps every
operator at or above the loop precedence). -/
def SpineGoal (s : List (BinOp × Expr)) : Prop :=
  ∀ (p t : Nat) (S : List Char) (pos : Nat) (rest : List Char) (st0 : Nat)
    (pv : Token) (ck : Chunk) (fuel : Nat),
    1 ≤ p → p ≤ 8 → chainD s t → p ≤ t → pos ≤ S.length →
    S.drop pos = renderSpine s ++ rest →
    boundary rest p →
    pv.line = 1 →
    8 * spineSize s ≤ fuel →
    ∃ (st2 : Nat) (pv2 : Token), pv2.line = 1 ∧
      compGo fuel (.loopCall (precOfNat p))
        ⟨some (sTok s rest 1), some pv, some ck, false, false,
          ⟨st0, pos + sLex s rest, 1, S⟩⟩
        = postSt S (pos + (renderSpine s).length) rest st2 pv2
            (extendChunk ck (codeOfSpine s ck.constants.length)
              (constsOfSpine s))

/-! # Theorems -/

/-- C10: decoding the byte encoding of each declared `OpCode` variant
(`OpReturn = 0` through `OpDivide = 6`) is the identity:
`byte_to_op(op as u8) = Ok(op)`. -/
theorem c10_opcode_round_trip : ∀ op : OpCode, byteToOp op.toByte = Except.ok op := by
  intro op
  cases op <;> rfl

/-- C6: the decoder accepts exactly the seven bytes 0-6 (`RETURN`,
`CONSTANT`, `NEGATE`, `ADD`, `SUBTRACT`, `MULTIPLY`, `DIVIDE`) out of
the whole `u8` domain; in particular no byte decodes to `NIL`, `TRUE`,
`FALSE`, `NOT`, `GREATER`, `LESS` or `EQUAL`, which the `OpCode`
enumeration does not even declare, so the claimed 14-opcode minimum
instruction set is not decodable. -/
theorem c6_decoder_accepts_exactly_seven_bytes :
    (List.range 256).filter byteDecodes = [0, 1, 2, 3, 4, 5, 6] := by decide

/-- C7: scanning `"/* x */ 1"` does not skip the block comment: only
the opening `/*` is consumed (the loop condition
`peek != '*' && peek_next != '/'` stops at the first `*`), so the
comment body is tokenized — the scanner yields identifier `x`, then
`*`, then `/`, then the number `1`, then end-of-input, instead of the
claimed number `1` directly. -/
theorem c7_block_comment_body_is_tokenized :
    (scanToken (ScanState.new ("/* x */ 1").toList)).1
        = ⟨TokenType.identifier, ['x'], 1⟩ ∧
    (scanToken (scanToken (ScanState.new ("/* x */ 1").toList)).2).1.ttype
        = TokenType.star ∧
    (scanToken (scanToken (scanToken
        (ScanState.new ("/* x */ 1").toList)).2).2).1.ttype
        = TokenType.slash ∧
    (scanToken (scanToken (scanToken (scanToken
        (ScanState.new ("/* x */ 1").toList)).2).2).2).1
        = ⟨TokenType.number, ['1'], 1⟩ ∧
    (scanToken (scanToken (scanToken (scanToken (scanToken
        (ScanState.new ("/* x */ 1").toList)).2).2).2).2).1.ttype
        = TokenType.eof := by decide

/-- C8: the line-table/code parallelism invariant
`lines.length = code.length` holds for `Chunk::new` and is preserved by
`write_instruction` and `write_byte` (each appends one entry to both
sequences) and by `add_constant` (which touches neither). -/
theorem c8_lines_code_parallel :
    Chunk.new.lines.length = Chunk.new.code.length ∧
    ∀ c : Chunk, c.lines.length = c.code.length →
      (∀ (op : OpCode) (line : Int),
        (c.writeInstruction op line).lines.length
          = (c.writeInstruction op line).code.length) ∧
      (∀ (b : Nat) (line : Int),
        (c.writeByte b line).lines.length = (c.writeByte b line).code.length) ∧
      (∀ v : Value,
        (c.addConstant v).1.lines.length = (c.addConstant v).1.code.length) := by
  refine ⟨rfl, fun c h => ⟨fun op line => ?_, fun b line => ?_, fun v => ?_⟩⟩ <;>
    simp [Chunk.writeInstruction, Chunk.writeByte, Chunk.addConstant, h]

/-- Witness for C8 at a concrete chunk. -/
theorem c8_witness :
    (Chunk.new.writeByte 7 1).lines.length = (Chunk.new.writeByte 7 1).code.length :=
  (c8_lines_code_parallel.2 Chunk.new (by decide)).2.1 7 1

/-- C3 counterexample: on a chunk already holding 256 constants the
257th `add_constant` appends (pool length 257) but returns the wrapped
index 0 — not the true index 256 — and the compiler's `make_constant`
wraps it in `Ok` with no error of any kind (`had_error` untouched),
contradicting the claimed constant-pool-overflow compile error. -/
theorem c3_counterexample :
    ((⟨[], List.replicate 256 Value.valNil, []⟩ : Chunk).addConstant Value.valNil).2
        = 0 ∧
    ((⟨[], List.replicate 256 Value.valNil, []⟩ : Chunk).addConstant
        Value.valNil).1.constants.length = 257 ∧
    (CompState.makeConstant
        ⟨none, none, some ⟨[], List.replicate 256 Value.valNil, []⟩, false, false,
          ScanState.new []⟩ Value.valNil).2 = Except.ok 0 ∧
    (CompState.makeConstant
        ⟨none, none, some ⟨[], List.replicate 256 Value.valNil, []⟩, false, false,
          ScanState.new []⟩ Value.valNil).1.hadError = false := by
  refine ⟨?_, ?_, ?_, ?_⟩ <;>
    simp only [Chunk.addConstant, CompState.makeConstant, List.length_append,
      List.length_replicate, List.length_cons, List.length_nil, Nat.mod_self]

/-- C3 amended: `add_constant` appends the value and returns
`(pool length before the call) % 256`; while the pool stays within the
one-byte range (at most 256 constants after the call) this is the true
index of the appended constant, but the 257th call returns the wrapped
index 0, and `make_constant` reports `Ok` — never an overflow error —
whenever a chunk is being compiled (in a debug build the 256th call
would already panic on the `u8` underflow instead of wrapping). -/
theorem c3_amended :
    ∀ (c : Chunk) (v : Value),
      (c.addConstant v).1.constants = c.constants ++ [v] ∧
      (c.addConstant v).2 = c.constants.length % 256 ∧
      (c.constants.length ≤ 255 → (c.addConstant v).2 = c.constants.length) ∧
      ∀ st : CompState, st.compilingChunk = some c →
        (st.makeConstant v).2 = Except.ok (c.constants.length % 256) ∧
        (st.makeConstant v).1.hadError = st.hadError := by
  intro c v
  refine ⟨rfl, rfl, fun h => ?_, fun st hst => ?_⟩
  · simp [Chunk.addConstant]
    omega
  · simp [CompState.makeConstant, hst, Chunk.addConstant]

/-- Witness for C3 amended at a concrete chunk and compiler state. -/
theorem c3_amended_witness :
    ((Chunk.new.addConstant Value.valNil).2 = Chunk.new.constants.length) ∧
    ((CompState.makeConstant
        ⟨none, none, some Chunk.new, false, false, ScanState.new []⟩
        Value.valNil).2 = Except.ok (Chunk.new.constants.length % 256)) :=
  ⟨(c3_amended Chunk.new Value.valNil).2.2.1 (by decide),
   ((c3_amended Chunk.new Value.valNil).2.2.2
      ⟨none, none, some Chunk.new, false, false, ScanState.new []⟩ rfl).1⟩

/-- C4 counterexample: with a loaded (empty) chunk and `ip = 0 ≥
code.length`, `read_byte` and `read_constant` do not return an error
result — they hit the out-of-bounds `chunk.code[self.ip]` index (a
panic), contradicting the claimed decode-error result. -/
theorem c4_counterexample :
    readByte ⟨some Chunk.new, [], 0, 0⟩ = ReadOut.panic ∧
    readConstant ⟨some Chunk.new, [], 0, 0⟩ = ReadOut.panic := by decide

/-- C4 amended: `read_byte`/`read_constant` return the
`Err(InterpretRuntimeError)` result exactly when no chunk is loaded;
with a loaded chunk an instruction pointer at or past `code.length`
instead reaches the unchecked `chunk.code[self.ip]` index and panics
(a bounds-checked Rust abort, not a silent out-of-bounds access, but
also not an error result). -/
theorem c4_amended :
    ∀ vm : VmSt,
      (vm.chunk = none → readByte vm = ReadOut.err ∧ readConstant vm = ReadOut.err) ∧
      (∀ c : Chunk, vm.chunk = some c → c.code.length ≤ vm.ip →
        readByte vm = ReadOut.panic ∧ readConstant vm = ReadOut.panic) := by
  intro vm
  constructor
  · intro h
    constructor <;> simp [readByte, readConstant, h]
  · intro c hc hip
    have hnone : c.code[vm.ip]? = none := List.getElem?_eq_none hip
    constructor <;> simp [readByte, readConstant, hc, hnone]

/-- Witness for C4 amended at concrete VM states. -/
theorem c4_amended_witness :
    (readByte ⟨none, [], 0, 0⟩ = ReadOut.err ∧
      readConstant ⟨none, [], 0, 0⟩ = ReadOut.err) ∧
    (readByte ⟨some Chunk.new, [], 3, 0⟩ = ReadOut.panic ∧
      readConstant ⟨some Chunk.new, [], 3, 0⟩ = ReadOut.panic) :=
  ⟨(c4_amended ⟨none, [], 0, 0⟩).1 rfl,
   (c4_amended ⟨some Chunk.new, [], 3, 0⟩).2 Chunk.new rfl (by decide)⟩

/-- C5 counterexample: executing `ADD` on the stack
(bottom → top) `1, 2, true, true` — the two values *on top* are
booleans — does not abort with "Operands must be numbers.": the type
check reads `stack.get(len - 1 - distance)`, the two *bottom* values
`1, 2` (both numbers), so the step continues and pops the booleans. -/
theorem c5_counterexample :
    (step ⟨some ⟨[OpCode.opAdd.toByte, OpCode.opReturn.toByte], [], [1, 1]⟩,
      [Value.valBool true, Value.valBool true,
        Value.valNumber ⟨2, 1⟩, Value.valNumber ⟨1, 1⟩], 0, 0⟩).isNext = true ∧
    (Value.valBool true).isNumber = false := by decide

/-- C5 amended: `peek_stack(distance)` indexes from the deque back, so
the values type-checked by a binary arithmetic opcode (`ADD`,
`SUBTRACT`, `MULTIPLY`, `DIVIDE` — `GREATER`/`LESS` do not exist in the
implemented opcode enumeration, cf. C6) are the two *bottom* stack
values, not the two on top.  When the stack holds exactly two values
the bottom pair and the top pair coincide and the claimed behaviour
holds: both operands are checked to be numbers, a mismatch aborts with
the runtime error "Operands must be numbers.", and otherwise the right
operand (pushed last) is popped, then the left, and
left-operator-right is pushed. -/
theorem c5_amended :
    ∀ opb : Nat, opb ∈ [3, 4, 5, 6] → ∀ (x y : Value) (l1 l2 : Int),
      (x.isNumber && y.isNumber = true →
        step ⟨some ⟨[opb, 0], [], [l1, l2]⟩, [y, x], 0, 0⟩
          = .next ⟨some ⟨[opb, 0], [], [l1, l2]⟩,
              [Value.valNumber (binOfByte opb x.asNumber y.asNumber)], 1, 1⟩) ∧
      (x.isNumber && y.isNumber = false →
        step ⟨some ⟨[opb, 0], [], [l1, l2]⟩, [y, x], 0, 0⟩
          = .errHalt ("Operands must be numbers.")) := by
  intro opb hmem x y l1 l2
  have h4 : opb = 3 ∨ opb = 4 ∨ opb = 5 ∨ opb = 6 := by
    simpa using hmem
  rcases h4 with rfl | rfl | rfl | rfl <;>
    cases x <;> cases y <;>
      exact ⟨fun h => by first | rfl | simp [Value.isNumber, Value.getType] at h,
        fun h => by first | rfl | simp [Value.isNumber, Value.getType] at h⟩

/-- Witness for C5 amended: `2 - 3` on a two-value stack, and a
boolean operand aborting. -/
theorem c5_amended_witness :
    (step ⟨some ⟨[4, 0], [], [1, 1]⟩,
        [Value.valNumber ⟨3, 1⟩, Value.valNumber ⟨2, 1⟩], 0, 0⟩
      = .next ⟨some ⟨[4, 0], [], [1, 1]⟩,
          [Value.valNumber (binOfByte 4 (Value.valNumber ⟨2, 1⟩).asNumber
            (Value.valNumber ⟨3, 1⟩).asNumber)], 1, 1⟩) ∧
    (step ⟨some ⟨[4, 0], [], [1, 1]⟩,
        [Value.valBool false, Value.valNumber ⟨2, 1⟩], 0, 0⟩
      = .errHalt ("Operands must be numbers.")) :=
  ⟨(c5_amended 4 (by decide) (Value.valNumber ⟨2, 1⟩) (Value.valNumber ⟨3, 1⟩) 1 1).1
      (by decide),
   (c5_amended 4 (by decide) (Value.valNumber ⟨2, 1⟩) (Value.valBool false) 1 1).2
      (by decide)⟩

/-! ### Compiling never drops the chunk (C1 support) -/

theorem errorAt_chunk (st : CompState) (t : Token) :
    (st.errorAt t).compilingChunk = st.compilingChunk := by
  unfold CompState.errorAt
  split <;> rfl

theorem errorAtCurrent_chunk (st : CompState) :
    st.errorAtCurrent.compilingChunk = st.compilingChunk := by
  unfold CompState.errorAtCurrent
  split
  · exact errorAt_chunk _ _
  · rfl

theorem cAdvanceLoop_chunk (fuel : Nat) (st : CompState) :
    (CompState.cAdvanceLoop fuel st).compilingChunk = st.compilingChunk := by
  induction fuel generalizing st with
  | zero => rfl
  | succ n ih =>
    rw [CompState.cAdvanceLoop]
    dsimp only
    split
    · rfl
    · rw [ih, errorAtCurrent_chunk]

theorem cAdvance_chunk (st : CompState) :
    st.cAdvance.compilingChunk = st.compilingChunk := by
  unfold CompState.cAdvance
  rw [cAdvanceLoop_chunk]

theorem cConsume_chunk (st : CompState) (ttype : TokenType) :
    (st.cConsume ttype).compilingChunk = st.compilingChunk := by
  unfold CompState.cConsume
  split
  · split
    · exact cAdvance_chunk _
    · exact errorAtCurrent_chunk _
  · exact errorAtCurrent_chunk _

theorem emitByte_isSome (st : CompState) (b : Nat) :
    (st.emitByte b).compilingChunk.isSome = st.compilingChunk.isSome := by
  unfold CompState.emitByte
  split
  · rfl
  · split <;> simp_all

theorem emitBytes_isSome (st : CompState) (b1 b2 : Nat) :
    (st.emitBytes b1 b2).compilingChunk.isSome = st.compilingChunk.isSome := by
  unfold CompState.emitBytes
  rw [emitByte_isSome, emitByte_isSome]

theorem emitConstant_isSome (st : CompState) (v : Value) :
    (st.emitConstant v).compilingChunk.isSome = st.compilingChunk.isSome := by
  unfold CompState.emitConstant CompState.makeConstant
  rcases h : st.compilingChunk with _ | c
  · simp only [h, errorAtCurrent_chunk, h]
  · simp only [h, emitBytes_isSome]
    rfl

theorem cNumber_isSome (st : CompState) :
    (cNumber st).compilingChunk.isSome = st.compilingChunk.isSome := by
  unfold cNumber
  split
  · rfl
  · split
    · exact emitConstant_isSome _ _
    · rw [errorAtCurrent_chunk]

theorem compGo_isSome (fuel : Nat) (call : PCall) (st : CompState) :
    (compGo fuel call st).compilingChunk.isSome = st.compilingChunk.isSome := by
  induction fuel generalizing call st with
  | zero => rfl
  | succ n ih =>
    cases call with
    | precCall p =>
      rw [compGo, ← cAdvance_chunk st]
      rcases h : st.cAdvance.prevTok with _ | prev
      · rfl
      · (try dsimp only)
        rcases hr : (getRule prev.ttype).pfx with _ | fid
        · (try dsimp only)
          rw [errorAtCurrent_chunk]
        · (try dsimp only)
          cases fid <;> (try dsimp only) <;> rw [ih] <;>
            first
              | rw [ih]
              | rw [cNumber_isSome]
              | rfl
    | loopCall p =>
      rw [compGo]
      rcases h : st.curTok with _ | current
      · rfl
      · (try dsimp only)
        split
        · rfl
        · rw [ih, ← cAdvance_chunk st]
          rcases h2 : st.cAdvance.prevTok with _ | prev
          · rfl
          · (try dsimp only)
            rcases hr : (getRule prev.ttype).ifx with _ | fid
            · (try dsimp only)
              rw [errorAtCurrent_chunk]
            · (try dsimp only)
              cases fid <;> (try dsimp only) <;>
                first
                  | rw [ih]
                  | rw [cNumber_isSome]
                  | rw [errorAtCurrent_chunk]
    | groupingCall =>
      rw [compGo, cConsume_chunk, ih]
    | unaryCall =>
      rw [compGo]
      rcases h : st.prevTok.map Token.ttype with _ | tt
      · (try dsimp only)
        rw [errorAtCurrent_chunk, ih]
      · (try dsimp only)
        cases tt <;> (try dsimp only) <;> first | rw [emitByte_isSome, ih] | rw [ih]
    | binaryCall =>
      rw [compGo]
      rcases h : st.prevTok with _ | operator
      · rfl
      · (try dsimp only)
        rcases hp : byteToPrec ((getRule operator.ttype).prec.toNat + 1) with e | p2
        · (try dsimp only)
          cases hop : operator.ttype <;> (try dsimp only) <;>
            first
              | rw [emitByte_isSome, errorAtCurrent_chunk]
              | rw [errorAtCurrent_chunk]
        · (try dsimp only)
          cases hop : operator.ttype <;> (try dsimp only) <;>
            first
              | rw [emitByte_isSome, ih]
              | rw [ih]

/-- C1: the sticky `had_error` flag never causes `to_chunk` to signal
failure — `to_chunk` returns `Some(chunk)` for *every* source (the flag
is set by `error_at` but never consulted), so `interpret_source` never
returns `InterpretCompileError`; concretely, compiling `"(1"` (missing
`)`) sets `had_error` yet hands back a completed chunk which
`interpret_source` runs to completion, printing `1`. -/
theorem c1_compile_errors_do_not_fail_the_compile :
    (∀ (source : List Char) (chunk : Chunk), (toChunk source chunk).2.isSome = true) ∧
    (toChunk ("(1").toList Chunk.new).1.hadError = true ∧
    interpretSource ("(1").toList = .ran (.okRun (some (Value.valNumber ⟨1, 1⟩))) := by
  refine ⟨fun source chunk => ?_, by decide, by decide⟩
  show (CompState.emitReturn _).compilingChunk.isSome = true
  rw [CompState.emitReturn, emitByte_isSome, cConsume_chunk, compGo_isSome,
    cAdvance_chunk]
  rfl

/-! ### `interpret_op_code` chunk construction (C9 support) -/

theorem pairUpGo_eq (l : List Nat) :
    (pairUpGo none l
        = ((pairList l).map Prod.fst, (pairList l).map Prod.snd)) ∧
    ∀ x : Nat, pairUpGo (some x) l
        = ((pairList (x :: l)).map Prod.fst, (pairList (x :: l)).map Prod.snd) := by
  induction l with
  | nil => exact ⟨rfl, fun _ => rfl⟩
  | cons a t ih =>
    refine ⟨?_, fun x => ?_⟩
    · show pairUpGo (some a) t = _
      rw [ih.2 a]
    · show (let (is, ls) := pairUpGo none t
            ((x : Nat) :: is, (a : Int) :: ls)) = _
      rw [ih.1]
      rfl

theorem buildLoop_eq (pl : List (Nat × Int)) :
    ∀ (fuel i : Nat) (c : Chunk), i ≤ pl.length → pl.length - i < fuel →
      buildLoop fuel (pl.map Prod.fst) (pl.map Prod.snd) i c
        = some (buildPairs (pl.drop i) c) := by
  intro fuel
  induction fuel with
  | zero => omega
  | succ n ih =>
    intro i c hi hfuel
    rw [buildLoop]
    rcases Nat.eq_or_lt_of_le hi with heq | hlt
    · simp only [List.length_map, heq, if_pos rfl, if_true, eq_self_iff_true,
        List.drop_length, buildPairs]
    · have hif : ¬(i = (pl.map Prod.fst).length) := by
        simp only [List.length_map]
        omega
      rw [if_neg hif]
      rcases hp : pl[i] with ⟨b1, ln1⟩
      have hgi : (pl.map Prod.fst).get? i = some b1 := by
        simp [List.get?_eq_getElem?, List.getElem?_map, List.getElem?_eq_getElem hlt,
          hp]
      have hli : (pl.map Prod.snd).get? i = some ln1 := by
        simp [List.get?_eq_getElem?, List.getElem?_map, List.getElem?_eq_getElem hlt,
          hp]
      have hdropi : pl.drop i = (b1, ln1) :: pl.drop (i + 1) := by
        rw [List.drop_eq_getElem_cons hlt, hp]
      rw [hgi]
      dsimp only
      by_cases h1 : b1 = 1
      · rw [if_pos h1]
        rcases Nat.lt_or_ge (i + 1) pl.length with hlt2 | hge2
        · rcases hp2 : pl[i + 1] with ⟨b2, ln2⟩
          have hgi2 : (pl.map Prod.fst).get? (i + 1) = some b2 := by
            simp [List.get?_eq_getElem?, List.getElem?_map,
              List.getElem?_eq_getElem hlt2, hp2]
          have hli2 : (pl.map Prod.snd).get? (i + 1) = some ln2 := by
            simp [List.get?_eq_getElem?, List.getElem?_map,
              List.getElem?_eq_getElem hlt2, hp2]
          have hdropi2 : pl.drop (i + 1) = (b2, ln2) :: pl.drop (i + 2) := by
            rw [List.drop_eq_getElem_cons hlt2, hp2]
          rw [hgi2, hli, hli2]
          dsimp only
          rw [ih (i + 2) _ (by omega) (by omega), hdropi, hdropi2]
          simp only [buildPairs, if_pos h1]
        · have hgi2 : (pl.map Prod.fst).get? (i + 1) = none := by
            simp only [List.get?_eq_getElem?]
            exact List.getElem?_eq_none (by simpa using hge2)
          have hdrop2 : pl.drop (i + 1) = [] := List.drop_eq_nil_of_le (by omega)
          rw [hgi2]
          dsimp only
          rw [ih (i + 1) _ (by omega) (by omega), hdrop2, hdropi, hdrop2]
          simp only [buildPairs, if_pos h1]
      · rw [if_neg h1, hli]
        dsimp only
        rw [ih (i + 1) _ (by omega) (by omega), hdropi]
        conv_rhs => rw [buildPairs.eq_def]
        dsimp only
        rw [if_neg h1]

theorem pairList_eq_zip : ∀ l : List Nat,
    pairList l = (evens l).zip ((odds l).map Int.ofNat)
  | [] => rfl
  | [_] => rfl
  | a :: b :: t => by
    rw [pairList, evens, odds, List.map, List.zip, List.zipWith,
      pairList_eq_zip t]
    rfl

/-- C9: the chunk `interpret_op_code` builds and executes comes from
the even-indexed input bytes only: the odd-indexed bytes become the
per-byte line table, a trailing unpaired byte of an odd-length input is
dropped (the `zip` of even and odd projections), and every even-indexed
byte equal to 1 (`OpConstant`) has the following even-indexed byte
reinterpreted as a number constant interned in the pool, with the
returned pool index replacing it in the emitted code. -/
theorem c9_chunk_from_even_bytes :
    ∀ l : List Nat,
      interpretOpCodeChunk l
        = some (buildPairs ((evens l).zip ((odds l).map Int.ofNat)) Chunk.new) := by
  intro l
  show (let (instructions, lines) := pairUpGo none l
        buildLoop (instructions.length + 1) instructions lines 0 Chunk.new) = _
  rw [(pairUpGo_eq l).1]
  show buildLoop ((pairList l).map Prod.fst).length.succ _ _ 0 Chunk.new = _
  rw [buildLoop_eq (pairList l) _ 0 Chunk.new (Nat.zero_le _)
      (by simp only [List.length_map]; omega),
    List.drop_zero, pairList_eq_zip l]

/-! ### Digits and numeric literals (C2 support) -/

theorem natCharsAux_congr : ∀ (m fuel1 fuel2 : Nat), m + 1 ≤ fuel1 → m + 1 ≤ fuel2 →
    natCharsAux fuel1 m = natCharsAux fuel2 m := by
  intro m
  induction m using Nat.strong_induction_on with
  | _ m ih =>
    intro fuel1 fuel2 h1 h2
    obtain ⟨f1, rfl⟩ : ∃ f, fuel1 = f + 1 := ⟨fuel1 - 1, by omega⟩
    obtain ⟨f2, rfl⟩ : ∃ f, fuel2 = f + 1 := ⟨fuel2 - 1, by omega⟩
    by_cases hm : m < 10
    · rw [natCharsAux, if_pos hm, natCharsAux, if_pos hm]
    · have hlt : m / 10 < m := Nat.div_lt_self (by omega) (by omega)
      rw [natCharsAux, if_neg hm, natCharsAux, if_neg hm,
        ih (m / 10) hlt f1 f2 (by omega) (by omega)]

theorem natCharsAux_eq (fuel m : Nat) (h : m + 1 ≤ fuel) :
    natCharsAux fuel m = natChars m :=
  natCharsAux_congr m fuel (m + 1) h (Nat.le_refl _)

theorem natChars_big (m : Nat) (h : 10 ≤ m) :
    natChars m = natChars (m / 10) ++ [digitChar (m % 10)] := by
  rw [natChars, natCharsAux, if_neg (by omega), natCharsAux_eq _ _ (by omega)]

theorem natChars_small (m : Nat) (h : m < 10) : natChars m = [digitChar m] := by
  rw [natChars, natCharsAux, if_pos h]

theorem digitChar_digit (d : Nat) (h : d < 10) :
    ScanState.isDigitC (digitChar d) = true := by
  interval_cases d <;> decide

theorem digitVal_digitChar (d : Nat) (h : d < 10) : digitVal (digitChar d) = d := by
  interval_cases d <;> decide

theorem natChars_ne_nil (n : Nat) : natChars n ≠ [] := by
  by_cases h : n < 10
  · rw [natChars_small n h]
    simp
  · rw [natChars_big n (by omega)]
    simp

theorem natChars_all_digits (n : Nat) :
    (natChars n).all ScanState.isDigitC = true := by
  by_cases h : n < 10
  · rw [natChars_small n h]
    simp [digitChar_digit _ h]
  · rw [natChars_big n (by omega)]
    simp only [List.all_append, Bool.and_eq_true]
    exact ⟨natChars_all_digits (n / 10),
      by simp [digitChar_digit _ (Nat.mod_lt n (by omega))]⟩
  termination_by n
  decreasing_by exact Nat.div_lt_self (by omega) (by omega)

theorem natChars_foldl (n : Nat) :
    (natChars n).foldl (fun acc c => acc * 10 + digitVal c) 0 = n := by
  by_cases h : n < 10
  · rw [natChars_small n h]
    simp [digitVal_digitChar _ h]
  · rw [natChars_big n (by omega), List.foldl_append, natChars_foldl (n / 10)]
    simp [digitVal_digitChar _ (Nat.mod_lt n (by omega))]
    omega
  termination_by n
  decreasing_by exact Nat.div_lt_self (by omega) (by omega)

theorem parseDigits_natChars (n : Nat) : parseDigits (natChars n) = some n := by
  rw [parseDigits, if_pos ⟨natChars_ne_nil n, natChars_all_digits n⟩,
    natChars_foldl]

theorem parseValueLexeme_natChars (n : Nat) :
    parseValueLexeme (natChars n) = some (.valNumber (Number.ofInt n)) := by
  rw [parseValueLexeme, parseDigits_natChars]

/-! ### Scanner lemmas (C2 support) -/

theorem peekS_of_drop (s : ScanState) (c : Char) (rest : List Char)
    (hdrop : s.source.drop s.cur = c :: rest) : s.peekS = some c := by
  have h2 : (s.source.drop s.cur)[0]? = some c := by
    rw [hdrop]
    simp
  rw [List.getElem?_drop] at h2
  rw [ScanState.peekS, List.get?_eq_getElem?]
  simpa using h2

theorem drop_succ_of_drop (s : ScanState) (c : Char) (rest : List Char)
    (hdrop : s.source.drop s.cur = c :: rest) :
    s.source.drop (s.cur + 1) = rest := by
  rw [← List.drop_drop, hdrop]
  rfl

theorem cur_lt_of_drop (s : ScanState) (c : Char) (rest : List Char)
    (hdrop : s.source.drop s.cur = c :: rest) : s.cur < s.source.length := by
  by_contra hge
  rw [List.drop_eq_nil_of_le (by omega)] at hdrop
  exact List.noConfusion hdrop

theorem isDigitC_le (c : Char) (h : ScanState.isDigitC c = true) :
    '0' ≤ c ∧ c ≤ '9' := by
  rw [ScanState.isDigitC, Bool.and_eq_true, decide_eq_true_iff,
    decide_eq_true_iff] at h
  exact h

theorem isDigitC_not_alpha (c : Char) (h : ScanState.isDigitC c = true) :
    ScanState.isAlphaC c = false := by
  obtain ⟨h0, h9⟩ := isDigitC_le c h
  have ha : ¬('a' ≤ c) := fun ha => absurd (le_trans ha h9) (by decide)
  have hA : ¬('A' ≤ c) := fun ha => absurd (le_trans ha h9) (by decide)
  have hu : ¬(c = '_') := by
    intro hu
    rw [hu] at h9
    exact absurd h9 (by decide)
  simp [ScanState.isAlphaC, ha, hA, hu]

theorem skipWsLoop_stop (fuel : Nat) (s : ScanState) (c : Char)
    (hpeek : s.peekS = some c)
    (hws : c ≠ ' ' ∧ c ≠ '\r' ∧ c ≠ '\t' ∧ c ≠ '\n')
    (hslash : c = '/' → ∀ d, s.peekNextS = some d → d ≠ '/' ∧ d ≠ '*') :
    ScanState.skipWsLoop fuel s = s := by
  cases fuel with
  | zero => rfl
  | succ n =>
    rw [ScanState.skipWsLoop]
    split
    · next heq => rw [hpeek] at heq; exact absurd (Option.some.inj heq) hws.1
    · next heq => rw [hpeek] at heq; exact absurd (Option.some.inj heq) hws.2.1
    · next heq => rw [hpeek] at heq; exact absurd (Option.some.inj heq) hws.2.2.1
    · next heq => rw [hpeek] at heq; exact absurd (Option.some.inj heq) hws.2.2.2
    · next heq =>
      rw [hpeek] at heq
      have hc : c = '/' := Option.some.inj heq
      split
      · next heq2 => exact absurd rfl ((hslash hc '/' heq2).1)
      · next heq2 => exact absurd rfl ((hslash hc '*' heq2).2)
      · rfl
    · rfl
theorem scanToken_punct (s : ScanState) (c : Char) (rest : List Char)
    (hdrop : s.source.drop s.cur = c :: rest)
    (hline : s.line = 1)
    (hc : c = '(' ∨ c = ')' ∨ c = '+' ∨ c = '-' ∨ c = '*') :
    scanToken s = (⟨puncTT c, [c], 1⟩, { s with start := s.cur, cur := s.cur + 1 }) := by
  have hpeek := peekS_of_drop s c rest hdrop
  have hlen := cur_lt_of_drop s c rest hdrop
  have hnws : c ≠ ' ' ∧ c ≠ '\r' ∧ c ≠ '\t' ∧ c ≠ '\n' := by
    rcases hc with rfl | rfl | rfl | rfl | rfl <;>
      exact ⟨by decide, by decide, by decide, by decide⟩
  have hns : c ≠ '/' := by
    rcases hc with rfl | rfl | rfl | rfl | rfl <;> decide
  have hskip : ScanState.skipWsLoop (s.source.length + 2) s = s :=
    skipWsLoop_stop _ s c hpeek hnws (fun heq => absurd heq hns)
  have hsl : sliceL s.source s.cur (s.cur + 1) = some [c] := by
    rw [sliceL, if_pos ⟨by omega, by omega⟩]
    have ht : (s.source.drop s.cur).take 1 = [c] := by
      rw [hdrop]
      rfl
    simpa using ht
  have hpeek2 : s.source.get? s.cur = some c := hpeek
  have hpeek3 : s.source[s.cur]? = some c := by
    rw [← List.get?_eq_getElem?]
    exact hpeek2
  have halpha : ScanState.isAlphaC c = false := by
    rcases hc with rfl | rfl | rfl | rfl | rfl <;> decide
  have hdig : ScanState.isDigitC c = false := by
    rcases hc with rfl | rfl | rfl | rfl | rfl <;> decide
  rcases hc with rfl | rfl | rfl | rfl | rfl <;>
    simp [scanToken, hskip, ScanState.isAtEnd, ScanState.peekS, hpeek3,
      ScanState.advC, makeToken, hsl, hline, puncTT, halpha, hdig]

theorem skipWsLoop_none (fuel : Nat) (s : ScanState) (hpeek : s.peekS = none) :
    ScanState.skipWsLoop fuel s = s := by
  cases fuel with
  | zero => rfl
  | succ n =>
    rw [ScanState.skipWsLoop]
    split <;>
      first
        | rfl
        | (next heq => rw [hpeek] at heq; exact Option.noConfusion heq)

theorem scanToken_at_end (s : ScanState) (hcur : s.cur = s.source.length)
    (hline : s.line = 1) :
    scanToken s = (⟨.eof, [], 1⟩, { s with start := s.cur }) := by
  have hpeek : s.peekS = none := by
    rw [ScanState.peekS, List.get?_eq_getElem?]
    exact List.getElem?_eq_none (by omega)
  have hpeek3 : s.source[s.cur]? = none := by
    rw [← List.get?_eq_getElem?]
    exact hpeek
  have hskip := skipWsLoop_none (s.source.length + 2) s hpeek
  have hsl : sliceL s.source s.cur s.cur = some [] := by
    rw [sliceL, if_pos ⟨le_rfl, by omega⟩]
    simp
  simp [scanToken, hskip, ScanState.isAtEnd, ScanState.peekS, hpeek3,
    makeToken, hsl, hline]

theorem scanToken_slash (s : ScanState) (rest : List Char)
    (hdrop : s.source.drop s.cur = '/' :: rest)
    (hline : s.line = 1)
    (hnext : ∀ d r3, rest = d :: r3 → d ≠ '/' ∧ d ≠ '*') :
    scanToken s
      = (⟨.slash, ['/'], 1⟩, { s with start := s.cur, cur := s.cur + 1 }) := by
  have hpeek := peekS_of_drop s '/' rest hdrop
  have hlen := cur_lt_of_drop s '/' rest hdrop
  have hend : s.isAtEnd = false := by
    rw [ScanState.isAtEnd, hpeek]
    rfl
  have hrest := drop_succ_of_drop s '/' rest hdrop
  have hpn : ∀ d, s.peekNextS = some d → d ≠ '/' ∧ d ≠ '*' := by
    intro d hd
    rw [ScanState.peekNextS, hend] at hd
    simp only [Bool.false_eq_true, if_false] at hd
    cases rest with
    | nil =>
      rw [show s.source.get? (s.cur + 1) = ((s.source.drop (s.cur + 1)).get? 0) by
          simp [List.get?_eq_getElem?, List.getElem?_drop], hrest] at hd
      exact Option.noConfusion hd
    | cons d0 r3 =>
      rw [show s.source.get? (s.cur + 1) = ((s.source.drop (s.cur + 1)).get? 0) by
          simp [List.get?_eq_getElem?, List.getElem?_drop], hrest] at hd
      have hdd : d0 = d := by
        have := Option.some.inj hd
        simpa using this
      exact hdd ▸ hnext d0 r3 rfl
  have hskip : ScanState.skipWsLoop (s.source.length + 2) s = s :=
    skipWsLoop_stop _ s '/' hpeek ⟨by decide, by decide, by decide, by decide⟩
      (fun _ => hpn)
  have hsl : sliceL s.source s.cur (s.cur + 1) = some ['/'] := by
    rw [sliceL, if_pos ⟨by omega, by omega⟩]
    have ht : (s.source.drop s.cur).take 1 = ['/'] := by
      rw [hdrop]
      rfl
    simpa using ht
  have hpeek3 : s.source[s.cur]? = some '/' := by
    rw [← List.get?_eq_getElem?]
    exact hpeek
  simp [scanToken, hskip, ScanState.isAtEnd, ScanState.peekS, hpeek3,
    ScanState.advC, makeToken, hsl, hline, puncTT,
    (by decide : ScanState.isAlphaC '/' = false),
    (by decide : ScanState.isDigitC '/' = false)]

theorem numLoop_digits : ∀ (ds : List Char) (fuel : Nat) (s : ScanState)
    (rest : List Char),
    s.source.drop s.cur = ds ++ rest →
    ds.all ScanState.isDigitC = true →
    noGlue rest →
    ds.length + 1 ≤ fuel →
    ScanState.numLoop fuel s = { s with cur := s.cur + ds.length } := by
  intro ds
  induction ds with
  | nil =>
    intro fuel s rest hdrop _ hng hfuel
    obtain ⟨f, rfl⟩ : ∃ f, fuel = f + 1 := ⟨fuel - 1, by omega⟩
    rw [ScanState.numLoop]
    simp only [List.nil_append] at hdrop
    cases rest with
    | nil =>
      have hpeek : s.peekS = none := by
        rw [ScanState.peekS, List.get?_eq_getElem?]
        refine List.getElem?_eq_none ?_
        have := List.drop_eq_nil_iff_le.mp hdrop
        omega
      rw [hpeek]
      simp
    | cons c r2 =>
      have hpeek := peekS_of_drop s c r2 hdrop
      rw [hpeek]
      simp only [hng.1, Bool.false_eq_true, if_false]
      simp
  | cons d ds ih =>
    intro fuel s rest hdrop hall hng hfuel
    simp only [List.length_cons] at hfuel
    obtain ⟨f, rfl⟩ : ∃ f, fuel = f + 1 := ⟨fuel - 1, by omega⟩
    simp only [List.cons_append] at hdrop
    have hpeek := peekS_of_drop s d (ds ++ rest) hdrop
    simp only [List.all_cons, Bool.and_eq_true] at hall
    rw [ScanState.numLoop, hpeek]
    simp only [hall.1, if_true]
    rw [ih f s.advC rest (drop_succ_of_drop s d (ds ++ rest) hdrop) hall.2 hng
      (by omega)]
    have harith : s.cur + 1 + ds.length = s.cur + (ds.length + 1) := by omega
    simp [ScanState.advC, harith]

theorem scanToken_number (s : ScanState) (d : Char) (ds rest : List Char)
    (hdrop : s.source.drop s.cur = d :: (ds ++ rest))
    (hline : s.line = 1)
    (hd : ScanState.isDigitC d = true)
    (hall : ds.all ScanState.isDigitC = true)
    (hng : noGlue rest) :
    scanToken s = (⟨.number, d :: ds, 1⟩,
      { s with start := s.cur, cur := s.cur + 1 + ds.length }) := by
  have hpeek := peekS_of_drop s d (ds ++ rest) hdrop
  have hlen := cur_lt_of_drop s d (ds ++ rest) hdrop
  have hlens : s.source.length - s.cur = 1 + ds.length + rest.length := by
    have h := congrArg List.length hdrop
    rw [List.length_drop] at h
    simpa [Nat.add_assoc, Nat.add_comm, Nat.add_left_comm] using h
  obtain ⟨h0, h9⟩ := isDigitC_le d hd
  have hne : ∀ c0 : Char, c0 < '0' → d ≠ c0 := by
    intro c0 hlt heq
    rw [heq] at h0
    exact absurd h0 (not_le.mpr hlt)
  have hskip : ScanState.skipWsLoop (s.source.length + 2) s = s :=
    skipWsLoop_stop _ s d hpeek
      ⟨hne ' ' (by decide), hne '\r' (by decide), hne '\t' (by decide),
        hne '\n' (by decide)⟩
      (fun heq => absurd heq (hne '/' (by decide)))
  have hpeek3 : s.source[s.cur]? = some d := by
    rw [← List.get?_eq_getElem?]
    exact hpeek
  have hnz : (d == '\x00') = false := by
    have := hne '\x00' (by decide)
    simp [this]
  have halpha := isDigitC_not_alpha d hd
  have hdrop2 : s.source.drop (s.cur + 1) = ds ++ rest :=
    drop_succ_of_drop s d (ds ++ rest) hdrop
  have hnum := numLoop_digits ds (s.source.length + 2)
    (⟨s.cur, s.cur + 1, 1, s.source⟩ : ScanState) rest hdrop2 hall hng
    (by show ds.length + 1 ≤ s.source.length + 2; omega)
  have hdrop3 : s.source.drop (s.cur + 1 + ds.length) = rest := by
    rw [← List.drop_drop, hdrop2, List.drop_left]
  have hidx : s.source[s.cur + 1 + ds.length]? = rest[0]? := by
    have h := congrArg (fun l => l[0]?) hdrop3
    simpa [List.getElem?_drop] using h
  have hdotP : s.source[s.cur + 1 + ds.length]? ≠ some ('.') := by
    rw [hidx]
    cases rest with
    | nil => simp
    | cons c r2 =>
      simp only [List.getElem?_cons_zero]
      intro h
      exact hng.2 (Option.some.inj h)
  have hsl : sliceL s.source s.cur (s.cur + 1 + ds.length) = some (d :: ds) := by
    rw [sliceL, if_pos ⟨by omega, by omega⟩]
    have ht : (s.source.drop s.cur).take (s.cur + 1 + ds.length - s.cur)
        = d :: ds := by
      rw [hdrop, show s.cur + 1 + ds.length - s.cur = ds.length + 1 by omega,
        List.take_succ_cons, List.take_left]
    rw [ht]
  rcases hpn : ScanState.peekNextS
      (⟨s.cur, s.cur + 1 + ds.length, 1, s.source⟩ : ScanState) with _ | n
  · simp [scanToken, hskip, ScanState.isAtEnd, ScanState.peekS, hpeek3, hnz,
      ScanState.advC, halpha, hd, numberTok, hnum, hpn, makeToken, hsl, hline]
  · simp [scanToken, hskip, ScanState.isAtEnd, ScanState.peekS, hpeek3, hnz,
      ScanState.advC, halpha, hd, numberTok, hnum, hpn, hdotP, makeToken, hsl,
      hline]

theorem cAdvance_eq (st : CompState) (tok : Token) (sc2 : ScanState)
    (hscan : scanToken st.scanner = (tok, sc2))
    (hne : tok.ttype ≠ TokenType.error) :
    st.cAdvance
      = { st with prevTok := st.curTok, curTok := some tok, scanner := sc2 } := by
  obtain ⟨f, hf⟩ : ∃ f, st.scanner.source.length + 2 = f + 1 :=
    ⟨st.scanner.source.length + 1, rfl⟩
  rw [CompState.cAdvance, hf, CompState.cAdvanceLoop]
  simp [hscan, hne]

theorem renderSpine_append (s1 s2 : List (BinOp × Expr)) :
    renderSpine (s1 ++ s2) = renderSpine s1 ++ renderSpine s2 := by
  induction s1 with
  | nil => simp [renderSpine]
  | cons ob s ih =>
    obtain ⟨op, r⟩ := ob
    simp [renderSpine, ih]

theorem spineSize_append (s1 s2 : List (BinOp × Expr)) :
    spineSize (s1 ++ s2) = spineSize s1 + spineSize s2 := by
  induction s1 with
  | nil => simp [spineSize]
  | cons ob s ih =>
    obtain ⟨op, r⟩ := ob
    simp [spineSize, ih]
    omega

theorem litsSpine_append (s1 s2 : List (BinOp × Expr)) :
    litsSpine (s1 ++ s2) = litsSpine s1 + litsSpine s2 := by
  induction s1 with
  | nil => simp [litsSpine]
  | cons ob s ih =>
    obtain ⟨op, r⟩ := ob
    simp [litsSpine, ih]
    omega

theorem codeOfSpine_append (s1 s2 : List (BinOp × Expr)) : ∀ (k : Nat),
    codeOfSpine (s1 ++ s2) k
      = codeOfSpine s1 k ++ codeOfSpine s2 (k + litsSpine s1) := by
  induction s1 with
  | nil => intro k; simp [codeOfSpine, litsSpine]
  | cons ob s ih =>
    obtain ⟨op, r⟩ := ob
    intro k
    simp [codeOfSpine, litsSpine, ih, Nat.add_assoc]

theorem constsOfSpine_append (s1 s2 : List (BinOp × Expr)) :
    constsOfSpine (s1 ++ s2) = constsOfSpine s1 ++ constsOfSpine s2 := by
  induction s1 with
  | nil => simp [constsOfSpine]
  | cons ob s ih =>
    obtain ⟨op, r⟩ := ob
    simp [constsOfSpine, ih]

theorem litVals_length (e : Expr) : e.litVals.length = e.lits := by
  induction e with
  | num n => rfl
  | neg a ih => simpa [Expr.litVals, Expr.lits] using ih
  | bin op a b iha ihb => simp [Expr.litVals, Expr.lits, iha, ihb]

theorem constsOf_length (e : Expr) : (constsOf e).length = e.lits := by
  simp [constsOf, litVals_length]

theorem render_ne_nil (e : Expr) (p : Nat) : render e p ≠ [] := by
  rw [render.eq_def]
  dsimp only
  split
  · exact List.cons_ne_nil _ _
  · cases e with
    | num n => exact natChars_ne_nil n
    | neg a => exact List.cons_ne_nil _ _
    | bin op a b => simp

theorem render_head_ok : ∀ (e : Expr) (p : Nat) (d : Char) (r3 : List Char),
    render e p = d :: r3 →
    d = '(' ∨ d = '-' ∨ ScanState.isDigitC d = true := by
  intro e
  induction e with
  | num n =>
    intro p d r3 h
    rw [render] at h
    (try dsimp only at h)
    split at h
    · exact Or.inl (List.head_eq_of_cons_eq h.symm)
    · refine Or.inr (Or.inr ?_)
      have hmem : d ∈ natChars n := h ▸ List.mem_cons_self d r3
      exact List.all_eq_true.mp (natChars_all_digits n) d hmem
  | neg a ih =>
    intro p d r3 h
    rw [render] at h
    (try dsimp only at h)
    split at h
    · exact Or.inl (List.head_eq_of_cons_eq h.symm)
    · exact Or.inr (Or.inl (List.head_eq_of_cons_eq h.symm))
  | bin op a b iha ihb =>
    intro p d r3 h
    rw [render] at h
    (try dsimp only at h)
    split at h
    · exact Or.inl (List.head_eq_of_cons_eq h.symm)
    · rcases ha : render a op.bp with _ | ⟨d2, r4⟩
      · exact absurd ha (render_ne_nil a op.bp)
      · rw [ha] at h
        simp only [List.cons_append] at h
        have hd2 : d2 = d := List.head_eq_of_cons_eq h
        exact hd2 ▸ iha op.bp d2 r4 ha

theorem render_head_not_comment (e : Expr) (p : Nat) (d : Char) (r3 : List Char)
    (h : render e p = d :: r3) : d ≠ '/' ∧ d ≠ '*' := by
  rcases render_head_ok e p d r3 h with rfl | rfl | hd
  · exact ⟨by decide, by decide⟩
  · exact ⟨by decide, by decide⟩
  · constructor
    · intro heq
      rw [heq] at hd
      exact absurd hd (by decide)
    · intro heq
      rw [heq] at hd
      exact absurd hd (by decide)

theorem Expr.tp_ge_six (e : Expr) : 6 ≤ e.tp := by
  cases e with
  | num n =>
    show 6 ≤ 10
    decide
  | neg a =>
    show 6 ≤ 8
    decide
  | bin op a b =>
    show 6 ≤ op.bp
    cases op <;> decide

theorem render_paren (e : Expr) (p : Nat) (h : e.tp < p) :
    render e p = '(' :: (render e 1 ++ [')']) := by
  have h1 : ¬ (e.tp < 1) := by
    have := Expr.tp_ge_six e
    omega
  conv_lhs => rw [render.eq_def]
  conv_rhs => rw [render.eq_def]
  dsimp only
  rw [if_pos h, if_neg h1]

theorem render_bare : ∀ (e : Expr) (p : Nat), p ≤ e.tp →
    render e p = renderHead (decomp e).1 ++ renderSpine (decomp e).2 := by
  intro e
  induction e with
  | num n =>
    intro p hp
    have hnp : ¬ ((Expr.num n).tp < p) := by
      simp only [Expr.tp] at hp ⊢
      omega
    rw [render.eq_def]
    dsimp only
    rw [if_neg hnp]
    simp [decomp, renderHead, renderSpine]
  | neg a ih =>
    intro p hp
    have hnp : ¬ ((Expr.neg a).tp < p) := by
      simp only [Expr.tp] at hp ⊢
      omega
    rw [render.eq_def]
    dsimp only
    rw [if_neg hnp]
    simp [decomp, renderHead, renderSpine]
  | bin op a b iha ihb =>
    intro p hp
    have hnp : ¬ ((Expr.bin op a b).tp < p) := by
      simp only [Expr.tp] at hp ⊢
      omega
    rw [render.eq_def]
    dsimp only
    rw [if_neg hnp]
    by_cases hle : op.bp ≤ a.tp
    · have ha := iha op.bp hle
      simp only [decomp, if_pos hle]
      rw [renderSpine_append, ha]
      simp [renderSpine]
    · have ha : render a op.bp = '(' :: (render a 1 ++ [')']) :=
        render_paren a op.bp (by omega)
      simp only [decomp, if_neg hle]
      rw [ha]
      simp [renderHead, renderSpine]

theorem chainD_head_ge : ∀ (s : List (BinOp × Expr)) (op : BinOp) (b : Expr)
    (t : Nat), chainD ((op, b) :: s) t → t ≤ op.bp := by
  intro s
  induction s with
  | nil =>
    intro op b t h
    exact Nat.le_of_eq (h : op.bp = t).symm
  | cons hd tl ih =>
    obtain ⟨op2, b2⟩ := hd
    intro op b t h
    exact le_trans (ih op2 b2 t h.2) h.1

theorem chainD_tail (s : List (BinOp × Expr)) (op : BinOp) (b : Expr) (t : Nat)
    (h : chainD ((op, b) :: s) t) : chainD s t := by
  cases s with
  | nil => trivial
  | cons hd tl =>
    obtain ⟨op2, b2⟩ := hd
    exact h.2

theorem chainD_next_le (s : List (BinOp × Expr)) (op op2 : BinOp) (b b2 : Expr)
    (t : Nat) (h : chainD ((op, b) :: (op2, b2) :: s) t) : op2.bp ≤ op.bp := h.1

theorem chainD_snoc : ∀ (s : List (BinOp × Expr)) (t : Nat) (op : BinOp)
    (b : Expr), chainD s t → op.bp ≤ t → chainD (s ++ [(op, b)]) op.bp := by
  intro s
  induction s with
  | nil =>
    intro t op b _ _
    exact rfl
  | cons hd tl ih =>
    obtain ⟨op1, b1⟩ := hd
    intro t op b h hle
    cases tl with
    | nil =>
      refine ⟨?_, rfl⟩
      rw [show op1.bp = t from h]
      exact hle
    | cons hd2 tl2 =>
      obtain ⟨op2, b2⟩ := hd2
      exact ⟨h.1, ih t op b h.2 hle⟩

theorem decomp_chainD : ∀ e : Expr, chainD (decomp e).2 e.tp := by
  intro e
  induction e with
  | num n => trivial
  | neg a ih => trivial
  | bin op a b iha ihb =>
    show chainD (decomp (Expr.bin op a b)).2 op.bp
    by_cases hle : op.bp ≤ a.tp
    · simp only [decomp, if_pos hle]
      exact chainD_snoc _ _ _ _ iha hle
    · simp only [decomp, if_neg hle]
      exact rfl

theorem decomp_size : ∀ e : Expr,
    headSize (decomp e).1 + spineSize (decomp e).2 = e.size := by
  intro e
  induction e with
  | num n => rfl
  | neg a ih => rfl
  | bin op a b iha ihb =>
    by_cases hle : op.bp ≤ a.tp
    · simp only [decomp, if_pos hle, spineSize_append]
      simp only [Expr.size, spineSize]
      omega
    · simp only [decomp, if_neg hle]
      simp only [Expr.size, spineSize, headSize]
      omega

theorem decomp_lits : ∀ e : Expr,
    headLits (decomp e).1 + litsSpine (decomp e).2 = e.lits := by
  intro e
  induction e with
  | num n => rfl
  | neg a ih => simp [decomp, headLits, litsSpine, Expr.lits]
  | bin op a b iha ihb =>
    by_cases hle : op.bp ≤ a.tp
    · simp only [decomp, if_pos hle, litsSpine_append]
      simp only [Expr.lits, litsSpine]
      omega
    · simp only [decomp, if_neg hle]
      simp only [Expr.lits, litsSpine, headLits]
      omega

theorem constsOf_decomp : ∀ e : Expr,
    constsOf e = constsOfHead (decomp e).1 ++ constsOfSpine (decomp e).2 := by
  intro e
  induction e with
  | num n => rfl
  | neg a ih => simp [decomp, constsOfHead, constsOfSpine, constsOf, Expr.litVals]
  | bin op a b iha ihb =>
    by_cases hle : op.bp ≤ a.tp
    · simp only [decomp, if_pos hle, constsOfSpine_append]
      rw [show constsOf (Expr.bin op a b) = constsOf a ++ constsOf b by
        simp [constsOf, Expr.litVals], iha]
      simp [constsOfSpine]
    · simp only [decomp, if_neg hle]
      rw [show constsOf (Expr.bin op a b) = constsOf a ++ constsOf b by
        simp [constsOf, Expr.litVals]]
      simp [constsOfHead, constsOfSpine]

theorem codeOf_decomp : ∀ (e : Expr) (k : Nat),
    codeOf e k
      = codeOfHead (decomp e).1 k
        ++ codeOfSpine (decomp e).2 (k + headLits (decomp e).1) := by
  intro e
  induction e with
  | num n => intro k; rfl
  | neg a ih => intro k; simp [decomp, codeOfHead, codeOfSpine, codeOf, headLits]
  | bin op a b iha ihb =>
    intro k
    by_cases hle : op.bp ≤ a.tp
    · simp only [decomp, if_pos hle, codeOfSpine_append]
      rw [show codeOf (Expr.bin op a b) k
          = codeOf a k ++ (codeOf b (k + a.lits) ++ [op.opByte]) by
        simp [codeOf], iha k]
      have hl : k + headLits (decomp a).1 + litsSpine (decomp a).2 = k + a.lits := by
        have := decomp_lits a
        omega
      simp [codeOfSpine, hl, List.append_assoc]
    · simp only [decomp, if_neg hle]
      rw [show codeOf (Expr.bin op a b) k
          = codeOf a k ++ (codeOf b (k + a.lits) ++ [op.opByte]) by
        simp [codeOf]]
      simp [codeOfHead, codeOfSpine, headLits]

theorem boundary_mono (rest : List Char) (p p2 : Nat) (h : boundary rest p)
    (hle : p ≤ p2) : boundary rest p2 := by
  cases rest with
  | nil => trivial
  | cons c r2 => exact ⟨h.1, lt_of_lt_of_le h.2.1 hle, h.2.2⟩

theorem drop_chunk (S l1 l2 : List Char) (pos : Nat)
    (h : S.drop pos = l1 ++ l2) : S.drop (pos + l1.length) = l2 := by
  rw [← List.drop_drop, h, List.drop_left]

theorem pos_segment_le (S l1 l2 : List Char) (pos : Nat)
    (h : S.drop pos = l1 ++ l2) (hp : pos ≤ S.length) :
    pos + l1.length ≤ S.length := by
  have h2 := congrArg List.length h
  rw [List.length_drop] at h2
  simp only [List.length_append] at h2
  omega

theorem noGlue_spine (s : List (BinOp × Expr)) (rest : List Char) (p : Nat)
    (hb : boundary rest p) : noGlue (renderSpine s ++ rest) := by
  cases s with
  | nil =>
    simp only [renderSpine, List.nil_append]
    cases rest with
    | nil => trivial
    | cons c r2 =>
      rcases hb.1 with rfl | rfl | rfl | rfl | rfl <;>
        exact ⟨by decide, by decide⟩
  | cons ob s2 =>
    obtain ⟨op, b⟩ := ob
    show noGlue (op.opChar :: (render b (op.bp + 1) ++ renderSpine s2 ++ rest))
    cases op <;> exact ⟨by decide, by decide⟩

theorem precOfNat_toNat (p : Nat) (hp : p ≤ 10) : (precOfNat p).toNat = p := by
  interval_cases p <;> rfl

theorem extendChunk_nil (ck : Chunk) : extendChunk ck [] [] = ck := by
  simp [extendChunk]

theorem extendChunk_extend (ck : Chunk) (c1 c2 : List Nat) (v1 v2 : List Value) :
    extendChunk (extendChunk ck c1 v1) c2 v2
      = extendChunk ck (c1 ++ c2) (v1 ++ v2) := by
  simp only [extendChunk, List.length_append, List.replicate_add,
    List.append_assoc]

theorem extendChunk_writeByte (ck : Chunk) (c : List Nat) (v : List Value)
    (b : Nat) :
    (extendChunk ck c v).writeByte b 1 = extendChunk ck (c ++ [b]) v := by
  simp only [extendChunk, Chunk.writeByte, List.length_append,
    List.length_cons, List.length_nil, List.replicate_add, List.replicate_one,
    List.append_assoc, Nat.zero_add]

theorem extendChunk_constants (ck : Chunk) (c : List Nat) (v : List Value) :
    (extendChunk ck c v).constants = ck.constants ++ v := rfl

theorem render_length_ge : ∀ (e : Expr) (p : Nat),
    e.size ≤ (render e p).length := by
  intro e
  induction e with
  | num n =>
    intro p
    have h1 : 1 ≤ (natChars n).length :=
      List.length_pos.mpr (natChars_ne_nil n)
    rw [render.eq_def]
    dsimp only
    split
    · simp only [List.length_cons, List.length_append, List.length_cons,
        List.length_nil, Expr.size]
      omega
    · exact h1
  | neg a ih =>
    intro p
    have h1 := ih 8
    rw [render.eq_def]
    dsimp only
    split <;>
      · simp only [List.length_cons, List.length_append, List.length_nil,
          Expr.size]
        omega
  | bin op a b iha ihb =>
    intro p
    have h1 := iha op.bp
    have h2 := ihb (op.bp + 1)
    rw [render.eq_def]
    dsimp only
    split <;>
      · simp only [List.length_cons, List.length_append, List.length_nil,
          Expr.size]
        omega

theorem scan_headTok (S : List Char) (st0 pos : Nat) (e : Expr) (p : Nat)
    (rest : List Char)
    (hp8 : p ≤ 8)
    (hdropS : S.drop pos = render e p ++ rest)
    (hng : noGlue (renderSpine (decomp e).2 ++ rest)) :
    scanToken (⟨st0, pos, 1, S⟩ : ScanState)
      = (headTok e p 1, (⟨pos, pos + headLexLen e p, 1, S⟩ : ScanState)) := by
  by_cases htp : e.tp < p
  · rw [render_paren e p htp] at hdropS
    have hps := scanToken_punct ⟨st0, pos, 1, S⟩ '('
      (render e 1 ++ [')'] ++ rest) (by simpa using hdropS) rfl (Or.inl rfl)
    rw [headTok, if_pos htp, headLexLen, if_pos htp]
    simpa [puncTT] using hps
  · rw [render_bare e p (by omega)] at hdropS
    rw [headTok, if_neg htp, headLexLen, if_neg htp]
    rcases hh : (decomp e).1 with n | a | a
    · rw [hh] at hdropS
      obtain ⟨d, ds, hnc⟩ : ∃ d ds, natChars n = d :: ds := by
        rcases hx : natChars n with _ | ⟨d, ds⟩
        · exact absurd hx (natChars_ne_nil n)
        · exact ⟨d, ds, rfl⟩
      have hall : (d :: ds).all ScanState.isDigitC = true := by
        rw [← hnc]
        exact natChars_all_digits n
      simp only [List.all_cons, Bool.and_eq_true] at hall
      have hdrop2 : S.drop pos
          = d :: (ds ++ (renderSpine (decomp e).2 ++ rest)) := by
        rw [hdropS, renderHead, hnc]
        simp [List.append_assoc]
      have hscan := scanToken_number ⟨st0, pos, 1, S⟩ d ds
        (renderSpine (decomp e).2 ++ rest) hdrop2 rfl hall.1 hall.2 hng
      rw [hscan, htok, ← hnc]
      have hlen : pos + 1 + ds.length = pos + hlex (.hnum n) := by
        rw [hlex, hnc]
        simp only [List.length_cons]
        omega
      simp [hlen]
    · rw [hh] at hdropS
      have hps := scanToken_punct ⟨st0, pos, 1, S⟩ '-'
        (render a 8 ++ renderSpine (decomp e).2 ++ rest)
        (by rw [hdropS, renderHead]; simp [List.append_assoc]) rfl
        (Or.inr (Or.inr (Or.inr (Or.inl rfl))))
      rw [htok, hlex]
      simpa [puncTT] using hps
    · rw [hh] at hdropS
      have hps := scanToken_punct ⟨st0, pos, 1, S⟩ '('
        (render a 1 ++ [')'] ++ renderSpine (decomp e).2 ++ rest)
        (by rw [hdropS, renderHead]; simp [List.append_assoc]) rfl (Or.inl rfl)
      rw [htok, hlex]
      simpa [puncTT] using hps

theorem scan_sTok (S : List Char) (st0 pos : Nat) (s : List (BinOp × Expr))
    (rest : List Char) (p : Nat)
    (hpos : pos ≤ S.length)
    (hdropS : S.drop pos = renderSpine s ++ rest)
    (hb : boundary rest p) :
    scanToken (⟨st0, pos, 1, S⟩ : ScanState)
      = (sTok s rest 1, (⟨pos, pos + sLex s rest, 1, S⟩ : ScanState)) := by
  cases s with
  | cons ob s2 =>
    obtain ⟨op, b⟩ := ob
    simp only [renderSpine, List.cons_append] at hdropS
    show scanToken _ = (⟨puncTT op.opChar, [op.opChar], 1⟩, _)
    cases op with
    | bAdd =>
      have hps := scanToken_punct ⟨st0, pos, 1, S⟩ '+'
        (render b (BinOp.bAdd.bp + 1) ++ (renderSpine s2 ++ rest))
        (by simpa [BinOp.opChar, List.append_assoc] using hdropS) rfl
        (Or.inr (Or.inr (Or.inl rfl)))
      simpa [sLex] using hps
    | bSub =>
      have hps := scanToken_punct ⟨st0, pos, 1, S⟩ '-'
        (render b (BinOp.bSub.bp + 1) ++ (renderSpine s2 ++ rest))
        (by simpa [BinOp.opChar, List.append_assoc] using hdropS) rfl
        (Or.inr (Or.inr (Or.inr (Or.inl rfl))))
      simpa [sLex] using hps
    | bMul =>
      have hps := scanToken_punct ⟨st0, pos, 1, S⟩ '*'
        (render b (BinOp.bMul.bp + 1) ++ (renderSpine s2 ++ rest))
        (by simpa [BinOp.opChar, List.append_assoc] using hdropS) rfl
        (Or.inr (Or.inr (Or.inr (Or.inr rfl))))
      simpa [sLex] using hps
    | bDiv =>
      have hnext : ∀ d r3,
          render b (BinOp.bDiv.bp + 1) ++ (renderSpine s2 ++ rest) = d :: r3 →
          d ≠ '/' ∧ d ≠ '*' := by
        intro d r3 h
        rcases hr : render b (BinOp.bDiv.bp + 1) with _ | ⟨d2, r4⟩
        · exact absurd hr (render_ne_nil b _)
        · rw [hr] at h
          simp only [List.cons_append] at h
          have hd2 : d2 = d := List.head_eq_of_cons_eq h
          exact hd2 ▸ render_head_not_comment b _ d2 r4 hr
      have hps := scanToken_slash ⟨st0, pos, 1, S⟩
        (render b (BinOp.bDiv.bp + 1) ++ (renderSpine s2 ++ rest))
        (by simpa [BinOp.opChar, List.append_assoc] using hdropS) rfl
        hnext
      simpa [sLex] using hps
  | nil =>
    simp only [renderSpine, List.nil_append] at hdropS
    cases rest with
    | nil =>
      have hpe : pos = S.length := by
        have := List.drop_eq_nil_iff_le.mp hdropS
        omega
      have hae := scanToken_at_end ⟨st0, pos, 1, S⟩ (by simpa using hpe) rfl
      simpa [sTok, bToken, sLex, bLexLen] using hae
    | cons c r2 =>
      show scanToken _ = (⟨puncTT c, [c], 1⟩, _)
      rcases hc : hb.1 with h1 | h1 | h1 | h1 | h1
      · subst h1
        have hps := scanToken_punct ⟨st0, pos, 1, S⟩ ')' r2 hdropS rfl
          (Or.inr (Or.inl rfl))
        simpa [sLex, bLexLen] using hps
      · subst h1
        have hps := scanToken_punct ⟨st0, pos, 1, S⟩ '+' r2 hdropS rfl
          (Or.inr (Or.inr (Or.inl rfl)))
        simpa [sLex, bLexLen] using hps
      · subst h1
        have hps := scanToken_punct ⟨st0, pos, 1, S⟩ '-' r2 hdropS rfl
          (Or.inr (Or.inr (Or.inr (Or.inl rfl))))
        simpa [sLex, bLexLen] using hps
      · subst h1
        have hps := scanToken_punct ⟨st0, pos, 1, S⟩ '*' r2 hdropS rfl
          (Or.inr (Or.inr (Or.inr (Or.inr rfl))))
        simpa [sLex, bLexLen] using hps
      · subst h1
        have hps := scanToken_slash ⟨st0, pos, 1, S⟩ r2 hdropS rfl (hb.2.2 rfl)
        simpa [sLex, bLexLen] using hps

theorem BinOp.bp_le_seven (op : BinOp) : op.bp ≤ 7 := by
  cases op <;> decide

theorem puncTT_rule_prec (op : BinOp) :
    (getRule (puncTT op.opChar)).prec.toNat = op.bp := by
  cases op <;> rfl

theorem puncTT_rule_ifx (op : BinOp) :
    (getRule (puncTT op.opChar)).ifx = some .binaryFn := by
  cases op <;> rfl

theorem bToken_rule (rest : List Char) (p : Nat) (hb : boundary rest p)
    (hp : 1 ≤ p) : (getRule (bToken rest 1).ttype).prec.toNat < p := by
  cases rest with
  | nil =>
    show (getRule TokenType.eof).prec.toNat < p
    simpa [getRule, Prec.toNat] using hp
  | cons c r2 =>
    rcases hb.1 with rfl | rfl | rfl | rfl | rfl <;>
      simpa [bToken, puncTT, getRule, Prec.toNat, bPrec] using hb.2.1

theorem bToken_spine (s2 : List (BinOp × Expr)) (rest : List Char) :
    bToken (renderSpine s2 ++ rest) 1 = sTok s2 rest 1 := by
  cases s2 with
  | nil => rfl
  | cons ob s3 =>
    obtain ⟨op, b⟩ := ob
    rfl

theorem bLexLen_spine (s2 : List (BinOp × Expr)) (rest : List Char) :
    bLexLen (renderSpine s2 ++ rest) = sLex s2 rest := by
  cases s2 with
  | nil => rfl
  | cons ob s3 =>
    obtain ⟨op, b⟩ := ob
    rfl

theorem headTok_ne_error (e : Expr) (p : Nat) (l : Int) :
    (headTok e p l).ttype ≠ TokenType.error := by
  rw [headTok]
  split
  · simp
  · rcases (decomp e).1 with n | a | a <;> simp [htok]

theorem sTok_ne_error (s : List (BinOp × Expr)) (rest : List Char) (l : Int)
    (p : Nat) (hb : boundary rest p) : (sTok s rest l).ttype ≠ TokenType.error := by
  cases s with
  | cons ob s2 =>
    obtain ⟨op, b⟩ := ob
    show (puncTT op.opChar) ≠ TokenType.error
    cases op <;> decide
  | nil =>
    cases rest with
    | nil => simp [sTok, bToken]
    | cons c r2 =>
      show (puncTT c) ≠ TokenType.error
      rcases hb.1 with rfl | rfl | rfl | rfl | rfl <;> decide

theorem boundary_spine (s2 : List (BinOp × Expr)) (rest : List Char) (p q : Nat)
    (hb : boundary rest p) (hpq : p ≤ q)
    (hops : ∀ op2 b2 s3, s2 = (op2, b2) :: s3 → op2.bp < q) :
    boundary (renderSpine s2 ++ rest) q := by
  cases s2 with
  | nil =>
    simp only [renderSpine, List.nil_append]
    exact boundary_mono rest p q hb hpq
  | cons ob s3 =>
    obtain ⟨op2, b2⟩ := ob
    have hlt := hops op2 b2 s3 rfl
    show boundary
      (op2.opChar :: (render b2 (op2.bp + 1) ++ renderSpine s3 ++ rest)) q
    refine ⟨?_, ?_, ?_⟩
    · cases op2 with
      | bAdd => exact Or.inr (Or.inl rfl)
      | bSub => exact Or.inr (Or.inr (Or.inl rfl))
      | bMul => exact Or.inr (Or.inr (Or.inr (Or.inl rfl)))
      | bDiv => exact Or.inr (Or.inr (Or.inr (Or.inr rfl)))
    · have : bPrec op2.opChar = op2.bp := by cases op2 <;> rfl
      rw [this]
      exact hlt
    · intro hc d r3 h
      rcases hr : render b2 (op2.bp + 1) with _ | ⟨d2, r4⟩
      · exact absurd hr (render_ne_nil b2 _)
      · rw [hr] at h
        simp only [List.cons_append] at h
        have hd2 : d2 = d := List.head_eq_of_cons_eq h
        exact hd2 ▸ render_head_not_comment b2 _ d2 r4 hr

theorem addConstant_write2 (ck : Chunk) (v : Value) (a b : Nat) :
    ((ck.addConstant v).1.writeByte a 1).writeByte b 1
      = extendChunk ck [a, b] [v] := by
  simp [Chunk.addConstant, Chunk.writeByte, extendChunk, List.append_assoc,
    List.replicate_succ]

theorem unaryCall_eq (f3 : Nat) (st : CompState)
    (hprev : st.prevTok = some ⟨TokenType.minus, ['-'], 1⟩) :
    compGo (f3 + 1) .unaryCall st
      = (compGo f3 (.precCall .pUnary) st).emitByte OpCode.opNegate.toByte := by
  rw [compGo]
  rw [hprev]
  rfl

theorem groupingCall_eq (f3 : Nat) (st : CompState) :
    compGo (f3 + 1) .groupingCall st
      = (compGo f3 (.precCall .pAssignment) st).cConsume .rightParen := by
  rw [compGo]

theorem binaryCall_eq (op : BinOp) (f2 : Nat) (st : CompState)
    (hprev : st.prevTok = some ⟨puncTT op.opChar, [op.opChar], 1⟩) :
    compGo (f2 + 1) .binaryCall st
      = (compGo f2 (.precCall (precOfNat (op.bp + 1))) st).emitByte op.opByte := by
  cases op <;>
    · rw [compGo]
      dsimp only
      rw [hprev]
      rfl

theorem number_step (ct : Option Token) (n : Nat) (cc : Chunk) (sc : ScanState) :
    cNumber ⟨ct, some ⟨.number, natChars n, 1⟩, some cc, false, false, sc⟩
      = ⟨ct, some ⟨.number, natChars n, 1⟩,
          some (extendChunk cc
            [OpCode.opConstant.toByte, cc.constants.length % 256]
            [Value.valNumber (Number.ofInt n)]), false, false, sc⟩ := by
  rw [cNumber]
  dsimp only
  rw [parseValueLexeme_natChars]
  dsimp only
  rw [CompState.emitConstant]
  dsimp only [CompState.makeConstant]
  rw [show cc.addConstant (Value.valNumber (Number.ofInt n))
      = ({ cc with constants := cc.constants
            ++ [Value.valNumber (Number.ofInt n)] },
         cc.constants.length % 256) from rfl]
  dsimp only
  rw [CompState.emitBytes, CompState.emitByte, CompState.emitByte]
  dsimp only
  have h2 := addConstant_write2 cc (Value.valNumber (Number.ofInt n))
    OpCode.opConstant.toByte (cc.constants.length % 256)
  rw [Chunk.addConstant] at h2
  dsimp only at h2
  rw [h2]

theorem emitByte_post (S : List Char) (endPos : Nat) (rest : List Char)
    (st2 : Nat) (pv2 : Token) (ck : Chunk) (c : List Nat) (v : List Value)
    (b : Nat) (hl : pv2.line = 1) :
    (postSt S endPos rest st2 pv2 (extendChunk ck c v)).emitByte b
      = postSt S endPos rest st2 pv2 (extendChunk ck (c ++ [b]) v) := by
  simp [postSt, CompState.emitByte, hl, extendChunk_writeByte]

theorem spine_correct : ∀ (m : Nat),
    (∀ e2 : Expr, e2.size ≤ m → ParseGoal e2) →
    ∀ s : List (BinOp × Expr), spineSize s ≤ m + 1 → SpineGoal s := by
  intro m hparse s
  induction s with
  | nil =>
    intro _ p t S pos rest st0 pv ck fuel hp1 hp8 _ _ hpos hdrop hb hpv hfuel
    refine ⟨st0, pv, hpv, ?_⟩
    have hst : (⟨some (sTok [] rest 1), some pv, some ck, false, false,
        ⟨st0, pos + sLex [] rest, 1, S⟩⟩ : CompState)
        = postSt S (pos + (renderSpine []).length) rest st0 pv
            (extendChunk ck (codeOfSpine [] ck.constants.length)
              (constsOfSpine [])) := by
      simp [postSt, sTok, sLex, renderSpine, codeOfSpine, constsOfSpine,
        extendChunk_nil]
    cases fuel with
    | zero => exact hst
    | succ f =>
      rw [compGo]
      dsimp only
      have hlt : (getRule (sTok [] rest 1).ttype).prec.toNat
          < (precOfNat p).toNat := by
        rw [precOfNat_toNat p (by omega)]
        exact bToken_rule rest p hb hp1
      rw [if_pos hlt]
      exact hst
  | cons ob s2 ihs =>
    obtain ⟨op, b⟩ := ob
    intro hs p t S pos rest st0 pv ck fuel hp1 hp8 hchain hpt hpos hdrop hb
      hpv hfuel
    have hbsize : b.size ≤ m := by
      simp only [spineSize] at hs
      omega
    have hsp2 : spineSize s2 ≤ m + 1 := by
      simp only [spineSize] at hs
      omega
    have hople := BinOp.bp_le_seven op
    have hopge : t ≤ op.bp := chainD_head_ge s2 op b t hchain
    have hfuel2 : 8 * (b.size + 1 + spineSize s2) ≤ fuel := by
      simpa [spineSize] using hfuel
    have hbpos : 1 ≤ b.size := by
      cases b <;> simp [Expr.size] <;> omega
    obtain ⟨f2, rfl⟩ : ∃ f2, fuel = f2 + 2 := ⟨fuel - 2, by omega⟩
    have hdrop1 : S.drop pos
        = [op.opChar] ++ (render b (op.bp + 1) ++ (renderSpine s2 ++ rest)) := by
      simpa [renderSpine, List.append_assoc] using hdrop
    have hdropb : S.drop (pos + 1)
        = render b (op.bp + 1) ++ (renderSpine s2 ++ rest) := by
      have := drop_chunk S [op.opChar] _ pos hdrop1
      simpa using this
    have hposb : pos + 1 ≤ S.length := by
      have := pos_segment_le S [op.opChar] _ pos hdrop1 hpos
      simpa using this
    have hscan := scan_headTok S st0 (pos + 1) b (op.bp + 1)
      (renderSpine s2 ++ rest) (by omega) hdropb
      (by
        rw [← List.append_assoc, ← renderSpine_append]
        exact noGlue_spine _ rest p hb)
    rw [compGo]
    dsimp only
    have hnlt : ¬ ((getRule (sTok ((op, b) :: s2) rest 1).ttype).prec.toNat
        < (precOfNat p).toNat) := by
      show ¬ ((getRule (puncTT op.opChar)).prec.toNat < (precOfNat p).toNat)
      rw [puncTT_rule_prec, precOfNat_toNat p (by omega)]
      omega
    rw [if_neg hnlt]
    rw [cAdvance_eq
      ⟨some (sTok ((op, b) :: s2) rest 1), some pv, some ck, false, false,
        ⟨st0, pos + sLex ((op, b) :: s2) rest, 1, S⟩⟩
      (headTok b (op.bp + 1) 1)
      ⟨pos + 1, pos + 1 + headLexLen b (op.bp + 1), 1, S⟩
      hscan (headTok_ne_error b (op.bp + 1) 1)]
    dsimp only [sTok]
    rw [puncTT_rule_ifx op]
    dsimp only
    rw [binaryCall_eq op f2 _ rfl]
    have hbound2 : boundary (renderSpine s2 ++ rest) (op.bp + 1) := by
      refine boundary_spine s2 rest p (op.bp + 1) hb (by omega) ?_
      intro op2 b2 s3 hs2
      subst hs2
      have := chainD_next_le s3 op op2 b b2 t hchain
      omega
    obtain ⟨st2, pv2, hpv2, heq⟩ := hparse b hbsize (op.bp + 1) S (pos + 1)
      (renderSpine s2 ++ rest) (pos + 1)
      (some ⟨puncTT op.opChar, [op.opChar], 1⟩) ck f2 (by omega) (by omega)
      hposb hdropb hbound2 (by omega)
    rw [heq, emitByte_post S _ _ st2 pv2 ck _ _ op.opByte hpv2]
    have hdrops2 : S.drop (pos + 1 + (render b (op.bp + 1)).length)
        = renderSpine s2 ++ rest :=
      drop_chunk S (render b (op.bp + 1)) _ (pos + 1) hdropb
    have hposs2 : pos + 1 + (render b (op.bp + 1)).length ≤ S.length :=
      pos_segment_le S (render b (op.bp + 1)) _ (pos + 1) hdropb hposb
    obtain ⟨st3, pv3, hpv3, heq2⟩ := ihs hsp2 p t S
      (pos + 1 + (render b (op.bp + 1)).length) rest st2 pv2
      (extendChunk ck (codeOf b ck.constants.length ++ [op.opByte])
        (constsOf b))
      (f2 + 1) hp1 hp8 (chainD_tail s2 op b t hchain) hpt hposs2 hdrops2 hb
      hpv2 (by omega)
    refine ⟨st3, pv3, hpv3, ?_⟩
    rw [show (postSt S (pos + 1 + (render b (op.bp + 1)).length)
        (renderSpine s2 ++ rest) st2 pv2
        (extendChunk ck (codeOf b ck.constants.length ++ [op.opByte])
          (constsOf b)))
        = (⟨some (sTok s2 rest 1), some pv2,
            some (extendChunk ck
              (codeOf b ck.constants.length ++ [op.opByte]) (constsOf b)),
            false, false,
            ⟨st2, pos + 1 + (render b (op.bp + 1)).length + sLex s2 rest, 1,
              S⟩⟩ : CompState) from by
      rw [postSt, bToken_spine, bLexLen_spine]]
    rw [heq2]
    have hkk : (extendChunk ck
        (codeOf b ck.constants.length ++ [op.opByte])
        (constsOf b)).constants.length = ck.constants.length + b.lits := by
      rw [extendChunk_constants, List.length_append, constsOf_length]
    rw [hkk]
    rw [postSt, postSt]
    rw [extendChunk_extend]
    have harr : (codeOf b ck.constants.length ++ [op.opByte])
        ++ codeOfSpine s2 (ck.constants.length + b.lits)
        = codeOfSpine ((op, b) :: s2) ck.constants.length := by
      rw [codeOfSpine]
      simp [List.append_assoc]
    rw [harr]
    have hcs : constsOf b ++ constsOfSpine s2
        = constsOfSpine ((op, b) :: s2) := by
      rw [constsOfSpine]
    rw [hcs]
    have hlen : pos + 1 + (render b (op.bp + 1)).length
        + (renderSpine s2).length
        = pos + (renderSpine ((op, b) :: s2)).length := by
      rw [renderSpine]
      simp only [List.length_cons, List.length_append]
      omega
    rw [hlen]

theorem parse_correct : ∀ (n : Nat) (e : Expr), e.size ≤ n → ParseGoal e := by
  intro n
  induction n using Nat.strong_induction_on with
  | _ n ih =>
    intro e hsize
    have hszpos : 1 ≤ e.size := by cases e <;> simp [Expr.size] <;> omega
    have hn1 : 1 ≤ n := le_trans hszpos hsize
    have hsmall : ∀ e2 : Expr, e2.size ≤ n - 1 → ParseGoal e2 := fun e2 h2 =>
      ih (n - 1) (by omega) e2 h2
    have hbare : BareGoal e := by
      intro p S pos rest st0 pv ck fuel hp1 hp8 hptp hpos hdrop hb hfuel
      have htp : ¬ e.tp < p := by omega
      rw [render_bare e p hptp] at hdrop
      rw [headTok, if_neg htp, headLexLen, if_neg htp,
        render_bare e p hptp]
      have hdsz := decomp_size e
      have hchain := decomp_chainD e
      obtain ⟨f, rfl⟩ : ∃ f, fuel = f + 1 := ⟨fuel - 1, by omega⟩
      rcases hh : (decomp e).1 with n0 | a | a <;> rw [hh] at hdrop hdsz <;>
        simp only [headSize] at hdsz
      · -- literal head
        have hdrop2 : S.drop (pos + (natChars n0).length)
            = renderSpine (decomp e).2 ++ rest := by
          refine drop_chunk S (natChars n0) _ pos ?_
          simpa [renderHead, List.append_assoc] using hdrop
        have hpos2 : pos + (natChars n0).length ≤ S.length := by
          refine pos_segment_le S (natChars n0)
            (renderSpine (decomp e).2 ++ rest) pos ?_ hpos
          simpa [renderHead, List.append_assoc] using hdrop
        have hscan := scan_sTok S st0 (pos + (natChars n0).length)
          (decomp e).2 rest p hpos2 hdrop2 hb
        rw [compGo]
        dsimp only
        rw [cAdvance_eq
          ⟨some (htok (.hnum n0) 1), pv, some ck, false, false,
            ⟨st0, pos + hlex (.hnum n0), 1, S⟩⟩
          (sTok (decomp e).2 rest 1)
          ⟨pos + (natChars n0).length,
            pos + (natChars n0).length + sLex (decomp e).2 rest, 1, S⟩
          hscan (sTok_ne_error (decomp e).2 rest 1 p hb)]
        dsimp only [htok, getRule]
        rw [number_step]
        obtain ⟨st2, pv2, hpv2, heq2⟩ := spine_correct (n - 1) hsmall
          (decomp e).2
          (by omega)
          p e.tp S (pos + (natChars n0).length) rest
          (pos + (natChars n0).length) ⟨.number, natChars n0, 1⟩
          (extendChunk ck
            [OpCode.opConstant.toByte, ck.constants.length % 256]
            [Value.valNumber (Number.ofInt n0)])
          f hp1 hp8 hchain (by omega) hpos2 hdrop2 hb rfl
          (by omega)
        refine ⟨st2, pv2, hpv2, ?_⟩
        rw [heq2]
        rw [show (extendChunk ck
            [OpCode.opConstant.toByte, ck.constants.length % 256]
            [Value.valNumber (Number.ofInt n0)]).constants.length
            = ck.constants.length + 1 by
          rw [extendChunk_constants, List.length_append]
          rfl]
        rw [extendChunk_extend, codeOf_decomp e, constsOf_decomp e, hh]
        dsimp only [codeOfHead, constsOfHead, headLits]
        rw [show pos + (natChars n0).length + (renderSpine (decomp e).2).length
            = pos + (renderHead (.hnum n0) ++ renderSpine (decomp e).2).length
            by simp [renderHead, Nat.add_assoc]]
      · -- unary-minus head
        have hasize : a.size ≤ n - 1 := by
          omega
        have hdrop1 : S.drop pos
            = ['-'] ++ (render a 8 ++ (renderSpine (decomp e).2 ++ rest)) := by
          simpa [renderHead, List.append_assoc] using hdrop
        have hdropa : S.drop (pos + 1)
            = render a 8 ++ (renderSpine (decomp e).2 ++ rest) := by
          have := drop_chunk S ['-'] _ pos hdrop1
          simpa using this
        have hposa : pos + 1 ≤ S.length := by
          have := pos_segment_le S ['-'] _ pos hdrop1 hpos
          simpa using this
        have hscan := scan_headTok S st0 (pos + 1) a 8
          (renderSpine (decomp e).2 ++ rest) (by omega) hdropa
          (by
            rw [← List.append_assoc, ← renderSpine_append]
            exact noGlue_spine _ rest p hb)
        rw [compGo]
        dsimp only
        rw [cAdvance_eq
          ⟨some (htok (.hneg a) 1), pv, some ck, false, false,
            ⟨st0, pos + hlex (.hneg a), 1, S⟩⟩
          (headTok a 8 1)
          ⟨pos + 1, pos + 1 + headLexLen a 8, 1, S⟩
          hscan (headTok_ne_error a 8 1)]
        dsimp only [htok, getRule]
        obtain ⟨f3, rfl⟩ : ∃ f3, f = f3 + 1 := ⟨f - 1, by omega⟩
        rw [unaryCall_eq f3 _ rfl]
        have hbound2 : boundary (renderSpine (decomp e).2 ++ rest) 8 := by
          refine boundary_spine (decomp e).2 rest p 8 hb (by omega) ?_
          intro op2 b2 s3 _
          have := BinOp.bp_le_seven op2
          omega
        obtain ⟨st2, pv2, hpv2, heq⟩ := hsmall a hasize 8 S (pos + 1)
          (renderSpine (decomp e).2 ++ rest) (pos + 1)
          (some ⟨TokenType.minus, ['-'], 1⟩) ck f3 (by omega) (by omega)
          hposa hdropa hbound2 (by omega)
        rw [show precOfNat 8 = Prec.pUnary from rfl] at heq
        rw [heq]
        rw [emitByte_post S _ _ st2 pv2 ck _ _ OpCode.opNegate.toByte hpv2]
        have hdrops2 : S.drop (pos + 1 + (render a 8).length)
            = renderSpine (decomp e).2 ++ rest :=
          drop_chunk S (render a 8) _ (pos + 1) hdropa
        have hposs2 : pos + 1 + (render a 8).length ≤ S.length :=
          pos_segment_le S (render a 8) _ (pos + 1) hdropa hposa
        obtain ⟨st3, pv3, hpv3, heq2⟩ := spine_correct (n - 1) hsmall
          (decomp e).2 (by omega)
          p e.tp S (pos + 1 + (render a 8).length) rest st2 pv2
          (extendChunk ck (codeOf a ck.constants.length
            ++ [OpCode.opNegate.toByte]) (constsOf a))
          (f3 + 1) hp1 hp8 hchain (by omega) hposs2 hdrops2 hb hpv2
          (by omega)
        refine ⟨st3, pv3, hpv3, ?_⟩
        rw [show (postSt S (pos + 1 + (render a 8).length)
            (renderSpine (decomp e).2 ++ rest) st2 pv2
            (extendChunk ck (codeOf a ck.constants.length
              ++ [OpCode.opNegate.toByte]) (constsOf a)))
            = (⟨some (sTok (decomp e).2 rest 1), some pv2,
                some (extendChunk ck (codeOf a ck.constants.length
                  ++ [OpCode.opNegate.toByte]) (constsOf a)),
                false, false,
                ⟨st2, pos + 1 + (render a 8).length + sLex (decomp e).2 rest,
                  1, S⟩⟩ : CompState) from by
          rw [postSt, bToken_spine, bLexLen_spine]]
        rw [heq2]
        rw [show (extendChunk ck (codeOf a ck.constants.length
            ++ [OpCode.opNegate.toByte]) (constsOf a)).constants.length
            = ck.constants.length + a.lits by
          rw [extendChunk_constants, List.length_append, constsOf_length]]
        rw [extendChunk_extend, codeOf_decomp e, constsOf_decomp e, hh]
        dsimp only [codeOfHead, constsOfHead, headLits]
        rw [show pos + 1 + (render a 8).length
            + (renderSpine (decomp e).2).length
            = pos + (renderHead (.hneg a) ++ renderSpine (decomp e).2).length
            by simp [renderHead]; omega]
      · -- parenthesised head
        have hspge : 1 ≤ spineSize (decomp e).2 := by
          cases e with
          | num n1 => exact absurd hh (by simp [decomp])
          | neg a1 => exact absurd hh (by simp [decomp])
          | bin op1 a1 b1 =>
            by_cases hle : op1.bp ≤ a1.tp
            · simp only [decomp, if_pos hle, spineSize_append]
              simp only [spineSize]
              omega
            · simp only [decomp, if_neg hle]
              simp only [spineSize]
              omega
        have hasize : a.size ≤ n - 1 := by
          omega
        have ha1 : 1 ≤ a.size := by
          cases a <;> simp [Expr.size] <;> omega
        have hdrop1 : S.drop pos
            = ['('] ++ (render a 1
              ++ (')' :: (renderSpine (decomp e).2 ++ rest))) := by
          simpa [renderHead, List.append_assoc] using hdrop
        have hdropa : S.drop (pos + 1)
            = render a 1 ++ (')' :: (renderSpine (decomp e).2 ++ rest)) := by
          have := drop_chunk S ['('] _ pos hdrop1
          simpa using this
        have hposa : pos + 1 ≤ S.length := by
          have := pos_segment_le S ['('] _ pos hdrop1 hpos
          simpa using this
        have hbr : boundary (')' :: (renderSpine (decomp e).2 ++ rest)) 1 := by
          refine ⟨Or.inl rfl, ?_, ?_⟩
          · show bPrec (')') < 1
            decide
          · intro hc
            exact absurd hc (by decide)
        have hscan := scan_headTok S st0 (pos + 1) a 1
          (')' :: (renderSpine (decomp e).2 ++ rest)) (by omega) hdropa
          (noGlue_spine _ _ 1 hbr)
        rw [compGo]
        dsimp only
        rw [cAdvance_eq
          ⟨some (htok (.hparen a) 1), pv, some ck, false, false,
            ⟨st0, pos + hlex (.hparen a), 1, S⟩⟩
          (headTok a 1 1)
          ⟨pos + 1, pos + 1 + headLexLen a 1, 1, S⟩
          hscan (headTok_ne_error a 1 1)]
        dsimp only [htok, getRule]
        obtain ⟨f3, rfl⟩ : ∃ f3, f = f3 + 1 := ⟨f - 1, by omega⟩
        rw [groupingCall_eq]
        obtain ⟨st2, pv2, hpv2, heq⟩ := hsmall a hasize 1 S (pos + 1)
          (')' :: (renderSpine (decomp e).2 ++ rest)) (pos + 1)
          (some ⟨TokenType.leftParen, ['('], 1⟩) ck f3 (by omega) (by omega)
          hposa hdropa hbr (by omega)
        rw [show precOfNat 1 = Prec.pAssignment from rfl] at heq
        rw [heq]
        -- consume the closing parenthesis
        have hdropc : S.drop (pos + 1 + (render a 1).length)
            = [')'] ++ (renderSpine (decomp e).2 ++ rest) := by
          have := drop_chunk S (render a 1) _ (pos + 1) hdropa
          simpa using this
        have hposc : pos + 1 + (render a 1).length ≤ S.length :=
          pos_segment_le S (render a 1) _ (pos + 1) hdropa hposa
        have hdropd : S.drop (pos + 1 + (render a 1).length + 1)
            = renderSpine (decomp e).2 ++ rest := by
          have := drop_chunk S [')'] _ (pos + 1 + (render a 1).length) hdropc
          simpa using this
        have hposd : pos + 1 + (render a 1).length + 1 ≤ S.length := by
          have := pos_segment_le S [')'] _ (pos + 1 + (render a 1).length)
            hdropc hposc
          simpa using this
        have hscan2 := scan_sTok S st2 (pos + 1 + (render a 1).length + 1)
          (decomp e).2 rest p hposd hdropd hb
        rw [CompState.cConsume]
        dsimp only [postSt, bToken, bLexLen]
        rw [if_pos (show puncTT (')') = TokenType.rightParen from rfl)]
        rw [show puncTT (')') = TokenType.rightParen from rfl]
        rw [cAdvance_eq
          ⟨some ⟨TokenType.rightParen, [')'], 1⟩, some pv2,
            some (extendChunk ck (codeOf a ck.constants.length)
              (constsOf a)),
            false, false,
            ⟨st2, pos + 1 + (render a 1).length + 1, 1, S⟩⟩
          (sTok (decomp e).2 rest 1)
          ⟨pos + 1 + (render a 1).length + 1,
            pos + 1 + (render a 1).length + 1 + sLex (decomp e).2 rest, 1, S⟩
          hscan2 (sTok_ne_error (decomp e).2 rest 1 p hb)]
        dsimp only
        obtain ⟨st3, pv3, hpv3, heq2⟩ := spine_correct (n - 1) hsmall
          (decomp e).2 (by omega)
          p e.tp S (pos + 1 + (render a 1).length + 1) rest
          (pos + 1 + (render a 1).length + 1)
          ⟨TokenType.rightParen, [')'], 1⟩
          (extendChunk ck (codeOf a ck.constants.length) (constsOf a))
          (f3 + 1) hp1 hp8 hchain (by omega) hposd hdropd hb rfl
          (by omega)
        rw [heq2]
        refine ⟨st3, pv3, hpv3, ?_⟩
        rw [show (extendChunk ck (codeOf a ck.constants.length)
            (constsOf a)).constants.length
            = ck.constants.length + a.lits by
          rw [extendChunk_constants, List.length_append, constsOf_length]]
        rw [extendChunk_extend, codeOf_decomp e, constsOf_decomp e, hh]
        dsimp only [codeOfHead, constsOfHead, headLits]
        rw [show pos + 1 + (render a 1).length + 1
            + (renderSpine (decomp e).2).length
            = pos + (renderHead (.hparen a) ++ renderSpine (decomp e).2).length
            by simp [renderHead]; omega]
        rfl
    intro p S pos rest st0 pv ck fuel hp1 hp8 hpos hdrop hb hfuel
    by_cases htp : e.tp < p
    · rw [render_paren e p htp] at hdrop
      rw [headTok, if_pos htp, headLexLen, if_pos htp, render_paren e p htp]
      obtain ⟨f, rfl⟩ : ∃ f, fuel = f + 1 := ⟨fuel - 1, by omega⟩
      have hdrop1 : S.drop pos
          = ['('] ++ (render e 1 ++ (')' :: rest)) := by
        simpa [List.append_assoc] using hdrop
      have hdropa : S.drop (pos + 1) = render e 1 ++ (')' :: rest) := by
        have := drop_chunk S ['('] _ pos hdrop1
        simpa using this
      have hposa : pos + 1 ≤ S.length := by
        have := pos_segment_le S ['('] _ pos hdrop1 hpos
        simpa using this
      have hbr : boundary (')' :: rest) 1 := by
        refine ⟨Or.inl rfl, ?_, ?_⟩
        · show bPrec (')') < 1
          decide
        · intro hc
          exact absurd hc (by decide)
      have hscan := scan_headTok S st0 (pos + 1) e 1 (')' :: rest)
        (by omega) hdropa (noGlue_spine _ _ 1 hbr)
      rw [compGo]
      dsimp only
      rw [cAdvance_eq
        ⟨some ⟨TokenType.leftParen, ['('], 1⟩, pv, some ck, false, false,
          ⟨st0, pos + 1, 1, S⟩⟩
        (headTok e 1 1)
        ⟨pos + 1, pos + 1 + headLexLen e 1, 1, S⟩
        hscan (headTok_ne_error e 1 1)]
      dsimp only [getRule]
      obtain ⟨f3, rfl⟩ : ∃ f3, f = f3 + 1 := ⟨f - 1, by omega⟩
      rw [groupingCall_eq]
      obtain ⟨st2, pv2, hpv2, heq⟩ := hbare 1 S (pos + 1) (')' :: rest)
        (pos + 1) (some ⟨TokenType.leftParen, ['('], 1⟩) ck f3 (by omega)
        (by omega) (by have := Expr.tp_ge_six e; omega) hposa hdropa hbr
        (by omega)
      rw [show precOfNat 1 = Prec.pAssignment from rfl] at heq
      rw [heq]
      have hdropc : S.drop (pos + 1 + (render e 1).length)
          = [')'] ++ rest := by
        have := drop_chunk S (render e 1) _ (pos + 1) hdropa
        simpa using this
      have hposc : pos + 1 + (render e 1).length ≤ S.length :=
        pos_segment_le S (render e 1) _ (pos + 1) hdropa hposa
      have hdropd : S.drop (pos + 1 + (render e 1).length + 1) = rest := by
        have := drop_chunk S [')'] _ (pos + 1 + (render e 1).length) hdropc
        simpa using this
      have hposd : pos + 1 + (render e 1).length + 1 ≤ S.length := by
        have := pos_segment_le S [')'] _ (pos + 1 + (render e 1).length)
          hdropc hposc
        simpa using this
      have hscan2 := scan_sTok S st2 (pos + 1 + (render e 1).length + 1)
        [] rest p hposd (by simpa [renderSpine] using hdropd) hb
      rw [CompState.cConsume]
      dsimp only [postSt, bToken, bLexLen]
      rw [if_pos (show puncTT (')') = TokenType.rightParen from rfl)]
      rw [show puncTT (')') = TokenType.rightParen from rfl]
      rw [cAdvance_eq
        ⟨some ⟨TokenType.rightParen, [')'], 1⟩, some pv2,
          some (extendChunk ck (codeOf e ck.constants.length) (constsOf e)),
          false, false,
          ⟨st2, pos + 1 + (render e 1).length + 1, 1, S⟩⟩
        (sTok [] rest 1)
        ⟨pos + 1 + (render e 1).length + 1,
          pos + 1 + (render e 1).length + 1 + sLex [] rest, 1, S⟩
        hscan2 (sTok_ne_error [] rest 1 p hb)]
      obtain ⟨st3, pv3, hpv3, heq2⟩ := spine_correct (n - 1) hsmall
        [] (by simp [spineSize])
        p p S (pos + 1 + (render e 1).length + 1) rest
        (pos + 1 + (render e 1).length + 1)
        ⟨TokenType.rightParen, [')'], 1⟩
        (extendChunk ck (codeOf e ck.constants.length) (constsOf e))
        (f3 + 1) hp1 hp8 trivial (le_refl p) hposd
        (by simpa [renderSpine] using hdropd) hb rfl (by simp [spineSize])
      rw [heq2]
      refine ⟨st3, pv3, hpv3, ?_⟩
      rw [show codeOfSpine [] (extendChunk ck (codeOf e ck.constants.length)
          (constsOf e)).constants.length = ([] : List Nat) from rfl]
      rw [show constsOfSpine [] = ([] : List Value) from rfl]
      rw [extendChunk_extend]
      simp only [List.append_nil]
      rw [show pos + 1 + (render e 1).length + 1
          + (renderSpine ([] : List (BinOp × Expr))).length
          = pos + ('(' :: (render e 1 ++ [')'])).length by
        simp [renderSpine]; omega]
      rfl
    · exact hbare p S pos rest st0 pv ck fuel hp1 hp8 (by omega) hpos hdrop
        hb (by omega)

theorem toChunk_render (e : Expr) :
    (toChunk (render e 1) Chunk.new).2
      = some ⟨codeOf e 0 ++ [OpCode.opReturn.toByte], constsOf e,
          List.replicate ((codeOf e 0).length + 1) 1⟩ := by
  have hb0 : boundary ([] : List Char) 1 := trivial
  have hscan := scan_headTok (render e 1) 0 0 e 1 [] (by omega)
    (by simp) (noGlue_spine _ [] 1 hb0)
  rw [toChunk]
  dsimp only
  rw [cAdvance_eq
    ⟨none, none, some Chunk.new, false, false, ScanState.new (render e 1)⟩
    (headTok e 1 1) ⟨0, 0 + headLexLen e 1, 1, render e 1⟩ hscan
    (headTok_ne_error e 1 1)]
  obtain ⟨st2, pv2, hpv2, heq⟩ := parse_correct e.size e le_rfl 1
    (render e 1) 0 [] 0 none Chunk.new (toChunkFuel (render e 1)) le_rfl
    (by omega) (by omega) (by simp) hb0
    (by
      have := render_length_ge e 1
      rw [toChunkFuel]
      omega)
  rw [show precOfNat 1 = Prec.pAssignment from rfl] at heq
  rw [show Chunk.new.constants.length = 0 from rfl] at heq
  rw [heq]
  rw [CompState.cConsume]
  dsimp only [postSt, bToken, bLexLen]
  rw [if_pos (show TokenType.eof = TokenType.eof from rfl)]
  have hscan2 := scanToken_at_end
    (⟨st2, 0 + (render e 1).length + 0, 1, render e 1⟩ : ScanState)
    (by simp) rfl
  rw [cAdvance_eq
    ⟨some ⟨TokenType.eof, [], 1⟩, some pv2,
      some (extendChunk Chunk.new (codeOf e 0) (constsOf e)), false, false,
      ⟨st2, 0 + (render e 1).length + 0, 1, render e 1⟩⟩
    ⟨TokenType.eof, [], 1⟩
    ⟨0 + (render e 1).length + 0, 0 + (render e 1).length + 0, 1,
      render e 1⟩
    hscan2 (by decide)]
  rw [CompState.emitReturn, CompState.emitByte]
  dsimp only
  rw [extendChunk_writeByte]
  simp [extendChunk, Chunk.new]

/-! ### VM execution lemmas (C2 support) -/

theorem get?_of_drop_cons {α : Type} (L : List α) (i : Nat) (b : α)
    (rest : List α) (h : L.drop i = b :: rest) : L.get? i = some b := by
  have h2 : (L.drop i)[0]? = some b := by
    rw [h]
    simp
  rw [List.getElem?_drop] at h2
  rw [List.get?_eq_getElem?]
  simpa using h2

theorem drop_of_drop_cons {α : Type} (L : List α) (i : Nat) (b : α)
    (rest : List α) (h : L.drop i = b :: rest) : L.drop (i + 1) = rest := by
  rw [← List.drop_drop, h]
  rfl

theorem drop_chunk2 {α : Type} (L l1 l2 : List α) (i : Nat)
    (h : L.drop i = l1 ++ l2) : L.drop (i + l1.length) = l2 := by
  rw [← List.drop_drop, h, List.drop_left]

theorem lt_of_get?_some {α : Type} (L : List α) (i : Nat) (a : α)
    (h : L.get? i = some a) : i < L.length := by
  by_contra hge
  rw [List.get?_eq_none.mpr (by omega)] at h
  exact Option.noConfusion h

theorem all_isNumber_get (stack : List Value)
    (hall : stack.all Value.isNumber = true) (j : Nat) (v : Value)
    (h : stack.get? j = some v) : v.isNumber = true := by
  have hmem : v ∈ stack := List.get?_mem h
  exact List.all_eq_true.mp hall v hmem

theorem isNumber_eq (v : Value) (h : v.isNumber = true) :
    v = Value.valNumber v.asNumber := by
  cases v with
  | valNumber q => rfl
  | valBool b => simp [Value.isNumber, Value.getType] at h
  | valNil => simp [Value.isNumber, Value.getType] at h

theorem dis_ok_simple (C : Chunk) (i b : Nat)
    (hlines : C.lines.length = C.code.length)
    (hbyte : C.code.get? i = some b)
    (hb : b = 0 ∨ b = 2 ∨ b = 3 ∨ b = 4 ∨ b = 5 ∨ b = 6) :
    C.dissasembleInstruction i = .ok (i + 1) := by
  have hlt : i < C.lines.length := by
    rw [hlines]
    exact lt_of_get?_some _ i b hbyte
  rw [Chunk.dissasembleInstruction, if_pos hlt, hbyte]
  rcases hb with rfl | rfl | rfl | rfl | rfl | rfl <;> rfl

theorem dis_ok_const (C : Chunk) (i k : Nat) (v : Value)
    (hlines : C.lines.length = C.code.length)
    (h1 : C.code.get? i = some 1)
    (h2 : C.code.get? (i + 1) = some k)
    (h3 : C.constants.get? k = some v) :
    C.dissasembleInstruction i = .ok (i + 2) := by
  have hlt : i < C.lines.length := by
    rw [hlines]
    exact lt_of_get?_some _ i 1 h1
  rw [Chunk.dissasembleInstruction, if_pos hlt, h1]
  dsimp only [byteToOp]
  rw [h2]
  dsimp only
  rw [h3]

theorem step_constant (C : Chunk) (i k : Nat) (v : Value) (stack : List Value)
    (hlines : C.lines.length = C.code.length)
    (h1 : C.code.get? i = some 1)
    (h2 : C.code.get? (i + 1) = some k)
    (h3 : C.constants.get? k = some v) :
    step ⟨some C, stack, i, i⟩ = .next ⟨some C, v :: stack, i + 2, i + 2⟩ := by
  rw [step]
  dsimp only
  rw [dis_ok_const C i k v hlines h1 h2 h3]
  dsimp only [readByte]
  rw [h1]
  dsimp only [byteToOp]
  dsimp only [readConstant]
  rw [h2]
  dsimp only
  rw [h3]
  rfl

theorem step_negate (C : Chunk) (i : Nat) (v : Value) (stack : List Value)
    (hlines : C.lines.length = C.code.length)
    (h1 : C.code.get? i = some 2)
    (hall : (v :: stack).all Value.isNumber = true) :
    step ⟨some C, v :: stack, i, i⟩
      = .next ⟨some C, Value.valNumber v.asNumber.negN :: stack,
          i + 1, i + 1⟩ := by
  rw [step]
  dsimp only
  rw [dis_ok_simple C i 2 hlines h1 (by omega)]
  dsimp only [readByte]
  rw [h1]
  dsimp only [byteToOp]
  rw [VmSt.execNegate]
  have hlen : 0 + 1 ≤ (v :: stack).length := by
    simp
  rw [VmSt.peekStack, if_pos hlen]
  obtain ⟨w, hw⟩ : ∃ w, (v :: stack).get? ((v :: stack).length - (0 + 1))
      = some w := by
    refine Option.isSome_iff_exists.mp ?_
    rw [List.get?_eq_getElem?, List.getElem?_eq_getElem (by simp)]
    rfl
  have hwnum : w.isNumber = true :=
    all_isNumber_get _ hall _ w hw
  rw [hw]
  dsimp only
  rw [hwnum]
  rfl

theorem step_binop (C : Chunk) (i : Nat) (op : BinOp) (va vb : Value)
    (stack : List Value)
    (hlines : C.lines.length = C.code.length)
    (h1 : C.code.get? i = some op.opByte)
    (hall : (vb :: va :: stack).all Value.isNumber = true) :
    step ⟨some C, vb :: va :: stack, i, i⟩
      = .next ⟨some C,
          Value.valNumber (op.numOp va.asNumber vb.asNumber) :: stack,
          i + 1, i + 1⟩ := by
  have hdis := dis_ok_simple C i op.opByte hlines h1
    (by cases op <;> simp [BinOp.opByte, OpCode.toByte])
  obtain ⟨wa, hwa⟩ : ∃ wa, (vb :: va :: stack).get?
      ((vb :: va :: stack).length - (0 + 1)) = some wa := by
    refine Option.isSome_iff_exists.mp ?_
    rw [List.get?_eq_getElem?,
      List.getElem?_eq_getElem (by simp only [List.length_cons]; omega)]
    rfl
  obtain ⟨wb, hwb⟩ : ∃ wb, (vb :: va :: stack).get?
      ((vb :: va :: stack).length - (1 + 1)) = some wb := by
    refine Option.isSome_iff_exists.mp ?_
    rw [List.get?_eq_getElem?,
      List.getElem?_eq_getElem (by simp only [List.length_cons]; omega)]
    rfl
  have hwanum : wa.isNumber = true := all_isNumber_get _ hall _ wa hwa
  have hwbnum : wb.isNumber = true := all_isNumber_get _ hall _ wb hwb
  have hbo : VmSt.binaryOperation ⟨some C, vb :: va :: stack, i + 1, i + 1⟩
      Value.fromNumber op.numOp
      = .next ⟨some C,
          Value.valNumber (op.numOp va.asNumber vb.asNumber) :: stack,
          i + 1, i + 1⟩ := by
    rw [VmSt.binaryOperation]
    dsimp only
    rw [show (⟨some C, vb :: va :: stack, i + 1, i + 1⟩ : VmSt).peekStack 0
        = some wa by
      rw [VmSt.peekStack, if_pos (by simp)]
      exact hwa]
    rw [show (⟨some C, vb :: va :: stack, i + 1, i + 1⟩ : VmSt).peekStack 1
        = some wb by
      rw [VmSt.peekStack, if_pos (by simp)]
      exact hwb]
    dsimp only
    rw [hwanum, hwbnum]
    rfl
  cases op <;>
    · rw [step]
      dsimp only
      rw [hdis]
      dsimp only [readByte]
      rw [h1]
      dsimp only [byteToOp, BinOp.opByte, OpCode.toByte]
      exact hbo

theorem stepsTo_trans {vm1 vm2 vm3 : VmSt} {n1 n2 : Nat}
    (h1 : StepsTo vm1 n1 vm2) (h2 : StepsTo vm2 n2 vm3) :
    StepsTo vm1 (n2 + n1) vm3 := by
  induction h1 with
  | refl vm => exact h2
  | tail hstep hrest ih => exact .tail hstep (ih h2)

theorem stepsTo_cast {vm vm2 : VmSt} {n n2 : Nat} (h : StepsTo vm n vm2)
    (he : n = n2) : StepsTo vm n2 vm2 := he ▸ h

theorem runFuel_of_steps {vm vm2 : VmSt} {n : Nat} (h : StepsTo vm n vm2) :
    ∀ m : Nat, runFuel (m + n) vm = runFuel m vm2 := by
  induction h with
  | refl vm => intro m; rfl
  | tail hstep hrest ih =>
    intro m
    rw [show m + (_ + 1) = (m + _) + 1 from rfl, runFuel, hstep]
    exact ih m

theorem stepsOf_le_code (e : Expr) : ∀ k : Nat,
    stepsOf e ≤ (codeOf e k).length := by
  induction e with
  | num n => intro k; simp [stepsOf, codeOf]
  | neg a ih =>
    intro k
    have := ih k
    simp only [stepsOf, codeOf, List.length_append, List.length_cons,
      List.length_nil]
    omega
  | bin op a b iha ihb =>
    intro k
    have h1 := iha k
    have h2 := ihb (k + a.lits)
    simp only [stepsOf, codeOf, List.length_append, List.length_cons,
      List.length_nil]
    omega

theorem run_codeOf : ∀ (e : Expr) (k : Nat) (C : Chunk) (i : Nat)
    (stack : List Value) (post : List Nat),
    C.code.drop i = codeOf e k ++ post →
    C.lines.length = C.code.length →
    poolOkB e k C.constants = true →
    stack.all Value.isNumber = true →
    StepsTo ⟨some C, stack, i, i⟩ (stepsOf e)
      ⟨some C, Value.valNumber (evalPool e k C.constants) :: stack,
        i + (codeOf e k).length, i + (codeOf e k).length⟩ := by
  intro e
  induction e with
  | num n =>
    intro k C i stack post hdrop hlines hpool hstack
    obtain ⟨v, hv, hvnum⟩ : ∃ v, C.constants.get? (k % 256) = some v ∧
        v.isNumber = true := by
      rw [poolOkB] at hpool
      rcases hg : C.constants.get? (k % 256) with _ | v
      · rw [hg] at hpool
        exact absurd hpool (by simp)
      · rw [hg] at hpool
        exact ⟨v, rfl, hpool⟩
    have hdropn : C.code.drop i = 1 :: (k % 256 :: post) := by
      simpa [codeOf, OpCode.toByte] using hdrop
    have h1 : C.code.get? i = some 1 :=
      get?_of_drop_cons _ i 1 _ hdropn
    have h2 : C.code.get? (i + 1) = some (k % 256) :=
      get?_of_drop_cons _ (i + 1) (k % 256) post
        (drop_of_drop_cons _ i 1 _ hdropn)
    have hstep := step_constant C i (k % 256) v stack hlines h1 h2 hv
    have hv2 : v = Value.valNumber (evalPool (.num n) k C.constants) := by
      rw [evalPool, hv]
      exact isNumber_eq v hvnum
    rw [show stepsOf (Expr.num n) = 0 + 1 from rfl,
      show (codeOf (Expr.num n) k).length = 2 from rfl]
    rw [hv2] at hstep
    exact StepsTo.tail hstep (StepsTo.refl _)
  | neg a ih =>
    intro k C i stack post hdrop hlines hpool hstack
    have hpoola : poolOkB a k C.constants = true := hpool
    have hdropa : C.code.drop i = codeOf a k ++ ([2] ++ post) := by
      simpa [codeOf, OpCode.toByte, List.append_assoc] using hdrop
    have hsteps1 := ih k C i stack ([2] ++ post) hdropa hlines hpoola hstack
    have hdrop2 : C.code.drop (i + (codeOf a k).length) = [2] ++ post :=
      drop_chunk2 C.code (codeOf a k) ([2] ++ post) i hdropa
    have h2 : C.code.get? (i + (codeOf a k).length) = some 2 :=
      get?_of_drop_cons _ _ 2 post hdrop2
    have hall2 : (Value.valNumber (evalPool a k C.constants) :: stack).all
        Value.isNumber = true := by
      simp only [List.all_cons, Bool.and_eq_true]
      exact ⟨rfl, hstack⟩
    have hstep2 := step_negate C (i + (codeOf a k).length)
      (Value.valNumber (evalPool a k C.constants)) stack hlines h2 hall2
    have hfin := StepsTo.tail hstep2 (StepsTo.refl _)
    rw [show i + (codeOf (Expr.neg a) k).length
        = i + (codeOf a k).length + 1 by
      simp [codeOf]
      omega]
    exact stepsTo_cast (stepsTo_trans hsteps1 hfin)
      (by simp [stepsOf]; omega)
  | bin op a b iha ihb =>
    intro k C i stack post hdrop hlines hpool hstack
    rw [poolOkB, Bool.and_eq_true] at hpool
    have hdropa : C.code.drop i
        = codeOf a k
          ++ (codeOf b (k + a.lits) ++ ([op.opByte] ++ post)) := by
      simpa [codeOf, List.append_assoc] using hdrop
    have hsteps1 := iha k C i stack _ hdropa hlines hpool.1 hstack
    have hdropb : C.code.drop (i + (codeOf a k).length)
        = codeOf b (k + a.lits) ++ ([op.opByte] ++ post) :=
      drop_chunk2 C.code (codeOf a k) _ i hdropa
    have hall1 : (Value.valNumber (evalPool a k C.constants) :: stack).all
        Value.isNumber = true := by
      simp only [List.all_cons, Bool.and_eq_true]
      exact ⟨rfl, hstack⟩
    have hsteps2 := ihb (k + a.lits) C (i + (codeOf a k).length)
      (Value.valNumber (evalPool a k C.constants) :: stack) _ hdropb hlines
      hpool.2 hall1
    have hdrop3 : C.code.drop
        (i + (codeOf a k).length + (codeOf b (k + a.lits)).length)
        = [op.opByte] ++ post :=
      drop_chunk2 C.code (codeOf b (k + a.lits)) _ (i + (codeOf a k).length)
        hdropb
    have h3 : C.code.get?
        (i + (codeOf a k).length + (codeOf b (k + a.lits)).length)
        = some op.opByte :=
      get?_of_drop_cons _ _ op.opByte post hdrop3
    have hall3 : (Value.valNumber (evalPool b (k + a.lits) C.constants)
        :: Value.valNumber (evalPool a k C.constants) :: stack).all
        Value.isNumber = true := by
      simp only [List.all_cons, Bool.and_eq_true]
      exact ⟨rfl, rfl, hstack⟩
    have hstep3 := step_binop C
      (i + (codeOf a k).length + (codeOf b (k + a.lits)).length) op
      (Value.valNumber (evalPool a k C.constants))
      (Value.valNumber (evalPool b (k + a.lits) C.constants)) stack hlines
      h3 hall3
    have hfin := StepsTo.tail hstep3 (StepsTo.refl _)
    rw [show i + (codeOf (Expr.bin op a b) k).length
        = i + (codeOf a k).length + (codeOf b (k + a.lits)).length + 1 by
      simp [codeOf]
      omega]
    exact stepsTo_cast
      (stepsTo_trans hsteps1 (stepsTo_trans hsteps2 hfin))
      (by simp [stepsOf]; omega)

theorem vmRun_codeOf (e : Expr) (P : List Value)
    (hpool : poolOkB e 0 P = true) :
    vmRun ⟨some ⟨codeOf e 0 ++ [OpCode.opReturn.toByte], P,
        List.replicate ((codeOf e 0).length + 1) 1⟩, [], 0, 0⟩
      = .okRun (some (Value.valNumber (evalPool e 0 P))) := by
  have hlines : (⟨codeOf e 0 ++ [OpCode.opReturn.toByte], P,
      List.replicate ((codeOf e 0).length + 1) 1⟩ : Chunk).lines.length
      = (⟨codeOf e 0 ++ [OpCode.opReturn.toByte], P,
          List.replicate ((codeOf e 0).length + 1) 1⟩ : Chunk).code.length := by
    simp
  have hdrop : (codeOf e 0 ++ [OpCode.opReturn.toByte]).drop 0
      = codeOf e 0 ++ [OpCode.opReturn.toByte] := List.drop_zero _
  have hsteps := run_codeOf e 0
    ⟨codeOf e 0 ++ [OpCode.opReturn.toByte], P,
      List.replicate ((codeOf e 0).length + 1) 1⟩ 0 []
    [OpCode.opReturn.toByte] hdrop hlines hpool rfl
  have hdropL := drop_chunk2 (codeOf e 0 ++ [OpCode.opReturn.toByte])
    (codeOf e 0) [OpCode.opReturn.toByte] 0 hdrop
  have h0 : (⟨codeOf e 0 ++ [OpCode.opReturn.toByte], P,
      List.replicate ((codeOf e 0).length + 1) 1⟩ : Chunk).code.get?
      (0 + (codeOf e 0).length) = some 0 :=
    get?_of_drop_cons _ _ 0 [] hdropL
  have hstep : step ⟨some ⟨codeOf e 0 ++ [OpCode.opReturn.toByte], P,
      List.replicate ((codeOf e 0).length + 1) 1⟩,
      [Value.valNumber (evalPool e 0 P)],
      0 + (codeOf e 0).length, 0 + (codeOf e 0).length⟩
      = .retOk (some (Value.valNumber (evalPool e 0 P))) := by
    rw [step]
    dsimp only
    rw [dis_ok_simple _ _ 0 hlines h0 (Or.inl rfl)]
    dsimp only [readByte]
    rw [h0]
    rfl
  have hle := stepsOf_le_code e 0
  rw [vmRun, vmRunFuelOf]
  dsimp only
  have harith : (codeOf e 0 ++ [OpCode.opReturn.toByte]).length + 1
      = (((codeOf e 0).length - stepsOf e) + 2) + stepsOf e := by
    simp only [List.length_append, List.length_cons, List.length_nil]
    omega
  rw [harith, runFuel_of_steps hsteps (((codeOf e 0).length - stepsOf e) + 2)]
  obtain ⟨m2, hm2⟩ : ∃ m2, ((codeOf e 0).length - stepsOf e) + 2 = m2 + 1 :=
    ⟨((codeOf e 0).length - stepsOf e) + 1, rfl⟩
  rw [hm2, runFuel, hstep]

theorem interpretSource_render (e : Expr)
    (hpool : poolOkB e 0 (constsOf e) = true) :
    interpretSource (render e 1)
      = .ran (.okRun (some (Value.valNumber (evalPool e 0 (constsOf e))))) := by
  unfold interpretSource
  rw [toChunk_render]
  dsimp only
  rw [vmRun_codeOf e (constsOf e) hpool]

theorem evalPool_of_hyp : ∀ (e : Expr) (k : Nat) (P : List Value),
    (∀ j, j < e.lits →
      P.get? ((k + j) % 256) = (e.litVals.get? j).map Value.valNumber) →
    poolOkB e k P = true ∧ evalPool e k P = evalE e := by
  intro e
  induction e with
  | num n =>
    intro k P hyp
    have h0 : P.get? (k % 256)
        = some (Value.valNumber (Number.ofInt n)) := by
      have h1 := hyp 0 (by simp [Expr.lits])
      simpa using h1
    constructor
    · rw [poolOkB, h0]
      rfl
    · rw [evalPool, h0]
      rfl
  | neg a ih =>
    intro k P hyp
    obtain ⟨h1, h2⟩ := ih k P (by
      intro j hj
      exact hyp j (by simpa [Expr.lits] using hj))
    refine ⟨h1, ?_⟩
    rw [evalPool, evalE, h2]
  | bin op a b iha ihb =>
    intro k P hyp
    obtain ⟨ha1, ha2⟩ := iha k P (by
      intro j hj
      have := hyp j (by simp only [Expr.lits]; omega)
      rw [this]
      congr 1
      rw [show (Expr.bin op a b).litVals = a.litVals ++ b.litVals from rfl]
      rw [List.get?_eq_getElem?, List.get?_eq_getElem?]
      rw [List.getElem?_append_left (by rw [litVals_length]; exact hj)])
    obtain ⟨hb1, hb2⟩ := ihb (k + a.lits) P (by
      intro j hj
      have := hyp (a.lits + j) (by simp only [Expr.lits]; omega)
      rw [show k + a.lits + j = k + (a.lits + j) by omega, this]
      congr 1
      rw [show (Expr.bin op a b).litVals = a.litVals ++ b.litVals from rfl]
      rw [List.get?_eq_getElem?, List.get?_eq_getElem?]
      rw [show a.lits + j = a.litVals.length + j by rw [litVals_length]]
      rw [List.getElem?_append_right (by omega)]
      congr 1
      omega)
    constructor
    · rw [poolOkB, ha1, hb1]
      rfl
    · rw [evalPool, evalE, ha2, hb2]

theorem constsOf_hyp (e : Expr) (hlits : e.lits ≤ 256) :
    ∀ j, j < e.lits →
      (constsOf e).get? ((0 + j) % 256)
        = (e.litVals.get? j).map Value.valNumber := by
  intro j hj
  have hjlt : j < 256 := by omega
  rw [Nat.zero_add, Nat.mod_eq_of_lt hjlt, constsOf, List.get?_map]

set_option maxRecDepth 40000 in
/-- C2 counterexample: the 257-literal source `"0+0+...+0+1"` (rendered
from `eBig`, a left-associated sum of 256 zeros and a final one)
evaluates to 1 under standard infix arithmetic, but compiling and
running it prints 0: the 257th `add_constant` call returns the wrapped
pool index `256 % 256 = 0`, so the emitted `OpConstant` operand reloads
the first pool slot (the value 0) instead of the interned 1. -/
theorem c2_counterexample :
    evalE eBig = ⟨1, 1⟩ ∧
    eBig.lits = 257 ∧
    interpretSource (render eBig 1)
      = .ran (.okRun (some (Value.valNumber ⟨0, 1⟩))) ∧
    (⟨0, 1⟩ : Number) ≠ ⟨1, 1⟩ := by
  refine ⟨by decide, by decide, ?_, by decide⟩
  have hpool : poolOkB eBig 0 (constsOf eBig) = true := by decide
  have heval : evalPool eBig 0 (constsOf eBig) = ⟨0, 1⟩ := by decide
  rw [interpretSource_render eBig hpool, heval]

/-- C2 (amended): for every arithmetic expression over numeric
literals built with `+ - * /`, unary `-` and parentheses that interns
at most 256 constants, compiling the rendered source with
`Compiler::to_chunk` and running the chunk with `Vm::run` prints
exactly the value of the expression under standard infix arithmetic
(`* /` over `+ -`, left associativity, unary minus tightest,
parentheses group); with more than 256 literals the one-byte constant
operand wraps and the claim fails (see the counterexample). -/
theorem c2_amended (e : Expr) (hlits : e.lits ≤ 256) :
    interpretSource (render e 1)
      = .ran (.okRun (some (Value.valNumber (evalE e)))) := by
  obtain ⟨hpool, heval⟩ :=
    evalPool_of_hyp e 0 (constsOf e) (constsOf_hyp e hlits)
  rw [interpretSource_render e hpool, heval]

/-- Witness for C2 (amended) on the claim text example `"1+2*3"`,
which prints 7. -/
theorem c2_amended_witness :
    (Expr.bin .bAdd (.num 1) (.bin .bMul (.num 2) (.num 3))).lits ≤ 256 ∧
    render (Expr.bin .bAdd (.num 1) (.bin .bMul (.num 2) (.num 3))) 1
      = ("1+2*3").toList ∧
    evalE (Expr.bin .bAdd (.num 1) (.bin .bMul (.num 2) (.num 3)))
      = ⟨7, 1⟩ ∧
    interpretSource (("1+2*3").toList)
      = .ran (.okRun (some (Value.valNumber
          (evalE (Expr.bin .bAdd (.num 1) (.bin .bMul (.num 2) (.num 3))))))) := by
  refine ⟨by decide, by decide, by decide, ?_⟩
  rw [show ("1+2*3").toList
      = render (Expr.bin .bAdd (.num 1) (.bin .bMul (.num 2) (.num 3))) 1
      from by decide]
  exact c2_amended (Expr.bin .bAdd (.num 1) (.bin .bMul (.num 2) (.num 3)))
    (by decide)
